import Mathlib

/-!
Verification of the depth-optimal graph-state synthesis core
(`src/synthesis/edge_colouring_graph_state_depth_optimal_synthesis.py`,
`src/synthesis/sat_solvers_synthesis.py`, `src/utils.py`).

The Python code is shallowly embedded below.  Adjacency matrices are kept as
`List (List Nat)` exactly as in the source; indexing out of range yields `0`,
matching the well-formedness preconditions the source assumes.  The external
Z3 oracle (spec section 6: "accepts integer-domain variable declarations and
linear (in)equality constraints ... returns SAT/UNSAT and, on SAT, a concrete
integer value per variable") is modelled by an exhaustive, complete search
over the finitely many bounded assignments; its soundness and completeness
with respect to the embedded constraint sets are proved, so every theorem
about satisfiability is a theorem about the constraint sets the source builds.
-/

namespace GraphStateSynthesis

/-- `adjacency_matrix[i][j]` as read by the Python code (well-formed inputs
never index out of range; out-of-range reads default to `0`). -/
def entry (A : List (List Nat)) (i j : Nat) : Nat :=
  (A.getD i []).getD j 0

/-- `len(adjacency_matrix)`: the node count. -/
def nodeCount (A : List (List Nat)) : Nat := A.length

/-- The canonical edge enumeration used by both encoders:
`for i in range(n): for j in range(i): if adjacency_matrix[i][j] == 1`. -/
def edgeList (A : List (List Nat)) : List (Nat × Nat) :=
  (List.range (nodeCount A)).flatMap fun i =>
    ((List.range i).filter fun j => entry A i j == 1).map fun j => (i, j)

/-- Precondition assumed by the source (spec section 7, *MalformedGraph*):
a square 0/1 matrix, symmetric with zero diagonal. -/
def IsSimple (A : List (List Nat)) : Prop :=
  (∀ i < nodeCount A, (A.getD i []).length = nodeCount A) ∧
  (∀ i < nodeCount A, ∀ j < nodeCount A, entry A i j = entry A j i) ∧
  (∀ i < nodeCount A, entry A i i = 0) ∧
  (∀ i < nodeCount A, ∀ j < nodeCount A, entry A i j ≤ 1)

instance (A : List (List Nat)) : Decidable (IsSimple A) := by
  unfold IsSimple; infer_instance

/-- The graph has at least one edge (equivalently, the adjacency matrix is not
all zeros, for symmetric inputs). -/
def HasEdge (A : List (List Nat)) : Prop :=
  ∃ i < nodeCount A, ∃ j < i, entry A i j = 1

instance (A : List (List Nat)) : Decidable (HasEdge A) := by
  unfold HasEdge; infer_instance

/-- Spec-side notion (section 8): the degree of node `v`. -/
def degree (A : List (List Nat)) (v : Nat) : Nat :=
  ((Finset.range (nodeCount A)).filter fun j => entry A v j = 1).card

/-- Spec-side notion (section 8): `maxDegree(G)`. -/
def maxDegree (A : List (List Nat)) : Nat :=
  (Finset.range (nodeCount A)).sup (degree A)

/-- `_max_outgoing_connections` from
`edge_colouring_graph_state_depth_optimal_synthesis.py`: for each row `i` it
counts the ones among columns `j ≤ i` only (`for j in range(i + 1)`), and
takes the maximum, starting from `-1`. -/
def max_outgoing_connections (A : List (List Nat)) : Int :=
  (List.range (nodeCount A)).foldl
    (fun acc i =>
      max acc (((List.range (i + 1)).filter fun j => entry A i j == 1).length : Int))
    (-1)

/-! ### The edge-colouring encoder's constraint set (`_synthesis`, lines 168-253) -/

/-- The bound constraints `edge_color[(i,j)] >= 0 and edge_color[(i,j)] < depth`
(the lower bound is implicit for `Nat`-valued colourings). -/
def ecBounds (A : List (List Nat)) (depth : Nat) (c : Nat → Nat → Nat) : Prop :=
  ∀ i < nodeCount A, ∀ j < i, entry A i j = 1 → c i j < depth

/-- The conflict constraints of the edge-colouring encoder: both inner loops of
`_synthesis` (lines 200-215), including the `i>k` / `j>k` branch selection. -/
def ecConflicts (A : List (List Nat)) (c : Nat → Nat → Nat) : Prop :=
  ∀ i < nodeCount A, ∀ j < i, entry A i j = 1 →
    (∀ k < j, entry A i k = 1 →
      (if i > k then c i j ≠ c i k else c i j ≠ c k i)) ∧
    (∀ k < i, entry A k j = 1 →
      (if j > k then c i j ≠ c j k else c i j ≠ c k j))

/-- `row_index_with_max_ones`: the first row whose sum of entries is strictly
larger than every earlier row's (the fold starts from `max_ones = -1`; the
index accumulator starts at `0`, equivalent to the source's `-1` whenever the
matrix is non-empty, which the all-zero short-circuit guarantees). -/
def maxRowIndexGo : List (List Nat) → Nat → Int → Nat → Nat
  | [], _, _, best => best
  | row :: rest, i, bestCount, best =>
      if (row.sum : Int) > bestCount then maxRowIndexGo rest (i + 1) (row.sum : Int) i
      else maxRowIndexGo rest (i + 1) bestCount best

/-- See `maxRowIndexGo`. -/
def maxRowIndex (A : List (List Nat)) : Nat := maxRowIndexGo A 0 (-1) 0

/-- The colour prescribed to the star edge `{r, i}` by the symmetry breaker:
the running `color` counter equals the number of earlier neighbours of `r`. -/
def countStar (A : List (List Nat)) (r i : Nat) : Nat :=
  ((List.range i).filter fun k => entry A r k == 1).length

/-- The symmetry-breaking constraints of the edge-colouring encoder
(lines 219-239): every edge incident to the densest row gets a fixed colour. -/
def ecSymBreak (A : List (List Nat)) (c : Nat → Nat → Nat) : Prop :=
  ∀ i < nodeCount A, entry A (maxRowIndex A) i = 1 →
    (if maxRowIndex A > i then c (maxRowIndex A) i else c i (maxRowIndex A)) =
      countStar A (maxRowIndex A) i

/-- The complete constraint instance built by the edge-colouring `_synthesis`
at a given depth: an assignment `c` (read only at canonical pairs `(i, j)`
with `j < i`) is a model exactly when this proposition holds. -/
def ecHolds (A : List (List Nat)) (depth : Nat) (sb : Bool)
    (c : Nat → Nat → Nat) : Prop :=
  ecBounds A depth c ∧ ecConflicts A c ∧ (sb = true → ecSymBreak A c)

set_option synthInstance.maxSize 1024 in
instance (A : List (List Nat)) (depth : Nat) (sb : Bool) (c : Nat → Nat → Nat) :
    Decidable (ecHolds A depth sb c) := by
  unfold ecHolds ecBounds ecConflicts ecSymBreak; infer_instance

/-- The edge-colouring instance is satisfiable at the given depth. -/
def ecSat (A : List (List Nat)) (depth : Nat) (sb : Bool) : Prop :=
  ∃ c : Nat → Nat → Nat, ecHolds A depth sb c

/-! ### The direct-scheduling encoder's constraint set
(`sat_solvers_synthesis.py`, `_synthesis`, lines 197-283).  One unified
assignment `c` carries both the `CZ_{i}_{j}` variables (pairs with
`adjacency_matrix[i][j] == 1`) and the `I_{i}_{j}` identity variables
(the remaining pairs with `j < i`); the two variable families have disjoint
index sets, so no information is lost. -/

/-- Bounds: `cz >= 0 and cz < depth` for edges, `id >= 0` for identities. -/
def dsBounds (A : List (List Nat)) (depth : Nat) (c : Nat → Nat → Nat) : Prop :=
  ∀ i < nodeCount A, ∀ j < i,
    if entry A i j = 1 then c i j < depth else True

/-- The conflict constraints of the direct-scheduling encoder (lines 230-251):
for each edge `(i, j)`, inequations against every variable of a pair sharing
qubit `i` (first loop, `k < j`) or qubit `j` (second loop, `k < i`, `k ≠ j`),
whether that pair is a CZ gate or an identity. -/
def dsConflicts (A : List (List Nat)) (c : Nat → Nat → Nat) : Prop :=
  ∀ i < nodeCount A, ∀ j < i, entry A i j = 1 →
    (∀ k < j,
      (if entry A i k = 1 then c i j ≠ c i k else c i j ≠ c i k)) ∧
    (∀ k < i, k ≠ j →
      (if entry A j k = 1 then (if j > k then c i j ≠ c j k else c i j ≠ c k j)
       else (if j > k then c i j ≠ c j k else c i j ≠ c k j)))

/-- The symmetry-breaking constraints of the direct-scheduling encoder
(lines 254-269): strict `<` orderings of each CZ variable below the identity
variables of non-adjacent pairs sharing one of its qubits. -/
def dsSymBreak (A : List (List Nat)) (c : Nat → Nat → Nat) : Prop :=
  ∀ i < nodeCount A, ∀ j < i, entry A i j = 1 →
    (∀ k < j, entry A i k ≠ 1 → c i j < c i k) ∧
    (∀ k < i, k ≠ j → entry A j k ≠ 1 →
      (if j > k then c i j < c j k else c i j < c k j))

/-- The complete constraint instance built by the direct-scheduling
`_synthesis` at a given depth. -/
def dsHolds (A : List (List Nat)) (depth : Nat) (sb : Bool)
    (c : Nat → Nat → Nat) : Prop :=
  dsBounds A depth c ∧ dsConflicts A c ∧ (sb = true → dsSymBreak A c)

set_option synthInstance.maxSize 4096 in
instance (A : List (List Nat)) (depth : Nat) (sb : Bool) (c : Nat → Nat → Nat) :
    Decidable (dsHolds A depth sb c) := by
  unfold dsHolds dsBounds dsConflicts dsSymBreak; infer_instance

/-- The direct-scheduling instance is satisfiable at the given depth. -/
def dsSat (A : List (List Nat)) (depth : Nat) (sb : Bool) : Prop :=
  ∃ c : Nat → Nat → Nat, dsHolds A depth sb c

/-! ### The satisfiability oracle, modelled as a complete bounded search -/

/-- All lists of the given length with entries `< depth`: the finite search
space of candidate models for the per-edge integer variables. -/
def allTuples (depth : Nat) : Nat → List (List Nat)
  | 0 => [[]]
  | m + 1 => (allTuples depth m).flatMap fun t => (List.range depth).map fun x => x :: t

/-- Reads a candidate model: the colour assigned to canonical pair `p`,
where `cs` lists the colours of the edges of `A` in `edgeList` order. -/
def colorFun (A : List (List Nat)) (cs : List Nat) (i j : Nat) : Nat :=
  (((edgeList A).zip cs).lookup (i, j)).getD 0

/-- Modelled from the spec: the external satisfiability oracle (section 6)
applied to the edge-colouring instance — a complete search that returns some
satisfying per-edge colour list when the instance is satisfiable, `none`
when it is not. -/
def ecSolve (A : List (List Nat)) (depth : Nat) (sb : Bool) : Option (List Nat) :=
  (allTuples depth (edgeList A).length).find? fun cs =>
    decide (ecHolds A depth sb (colorFun A cs))

/-- Colour assignments for direct scheduling: edges read from the candidate
model, identity variables all set to `depth` (any value `≥ depth` satisfies
every constraint an identity variable occurs in). -/
def dsAssign (A : List (List Nat)) (depth : Nat) (cs : List Nat) (i j : Nat) : Nat :=
  if entry A i j = 1 then colorFun A cs i j else depth

/-- Modelled from the spec: the external satisfiability oracle (section 6)
applied to the direct-scheduling instance.  Identity variables are
unbounded; completeness of restricting them to the single value `depth` is
proved in `dsHolds_of_proper` below. -/
def dsSolve (A : List (List Nat)) (depth : Nat) (sb : Bool) : Option (List Nat) :=
  (allTuples depth (edgeList A).length).find? fun cs =>
    decide (dsHolds A depth sb (dsAssign A depth cs))

/-- Inserting a value into a Python-dict-style association list: append to
the existing key's list, or add a new key at the end (dicts preserve
insertion order). -/
def addToKey {α : Type} : List (Nat × List α) → Nat → α → List (Nat × List α)
  | [], k, x => [(k, [x])]
  | (k', xs) :: rest, k, x =>
      if k' = k then (k', xs ++ [x]) :: rest else (k', xs) :: addToKey rest k x

/-- The model-readout loop of both `_synthesis` functions: iterate the edge
variables in insertion order and group them by assigned colour, preserving
dict insertion order of the colours. -/
def groupByColor (edges : List (Nat × Nat)) (c : Nat → Nat → Nat) :
    List (Nat × List (Nat × Nat)) :=
  edges.foldl (fun acc e => addToKey acc (c e.1 e.2) e) []

/-- The edge-colouring `_synthesis`: the layer-to-edges mapping on success,
`{}` (the empty mapping) when the instance is unsatisfiable. -/
def ecSynthesis (A : List (List Nat)) (depth : Nat) (sb : Bool) :
    List (Nat × List (Nat × Nat)) :=
  match ecSolve A depth sb with
  | none => []
  | some cs => groupByColor (edgeList A) (colorFun A cs)

/-- The direct-scheduling `_synthesis`: only the CZ variables are read back
into the mapping; identity variables are discarded. -/
def dsSynthesis (A : List (List Nat)) (depth : Nat) (sb : Bool) :
    List (Nat × List (Nat × Nat)) :=
  match dsSolve A depth sb with
  | none => []
  | some cs => groupByColor (edgeList A) (colorFun A cs)

/-! ### Search drivers (`_linear_search`, `_binary_search`; identical in both
modules except for the lower bound of the search interval) -/

/-- The loop `for depth in range(d, d + rem): ...` of `_linear_search`:
probe, count one solver call, stop on a non-empty mapping.  When the range is
exhausted without a break the loop variable keeps its last value `d - 1` and
the mapping stays empty. -/
def linearGo (synth : Nat → List (Nat × List (Nat × Nat))) :
    Nat → Nat → Nat → List (Nat × List (Nat × Nat)) × Nat × Nat
  | d, 0, calls => ([], d - 1, calls)
  | d, rem + 1, calls =>
      let m := synth d
      if m ≠ [] then (m, d, calls + 1) else linearGo synth (d + 1) rem (calls + 1)

/-- `_linear_search` on an abstract per-depth encoder: probe the depths
`lo, lo + 1, ..., hi` in order (Python's `range(lo, hi + 1)`; `depth` stays
`0` if the range is empty). -/
def linearSearch (synth : Nat → List (Nat × List (Nat × Nat))) (lo hi : Nat) :
    List (Nat × List (Nat × Nat)) × Nat × Nat :=
  if hi < lo then ([], 0, 0) else linearGo synth lo (hi + 1 - lo) 0

/-- The `while not found_optimal_depth` loop of `_binary_search`, with the
memo dictionary `mappings_at_depth` represented by its key set (the stored
values are exactly `synth key`, as `synth` is deterministic).  The `fuel`
argument bounds the iteration count; `none` models non-termination and is
proved unreachable under the monotonicity precondition. -/
def binaryGo (synth : Nat → List (Nat × List (Nat × Nat))) :
    Nat → Nat → Nat → List Nat → Nat →
      Option (List (Nat × List (Nat × Nat)) × Nat × Nat)
  | 0, _, _, _, _ => none
  | fuel + 1, l, r, cache, calls =>
      let mid := (l + r) / 2
      let cache1 := if mid ∈ cache then cache else mid :: cache
      let calls1 := if mid ∈ cache then calls else calls + 1
      let cache2 :=
        if mid ≠ l ∧ ¬ (mid - 1) ∈ cache1 then (mid - 1) :: cache1 else cache1
      let calls2 :=
        if mid ≠ l ∧ ¬ (mid - 1) ∈ cache1 then calls1 + 1 else calls1
      if synth mid = [] then binaryGo synth fuel (mid + 1) r cache2 calls2
      else if mid ≠ l ∧ synth (mid - 1) ≠ [] then
        binaryGo synth fuel l (mid - 1) cache2 calls2
      else some (synth mid, mid, calls2)

/-- `_binary_search` on an abstract per-depth encoder.  The interval
`[lo, hi]` strictly shrinks at every step (proved below), so `hi + 2`
iterations always suffice; the fuel is set accordingly. -/
def binarySearch (synth : Nat → List (Nat × List (Nat × Nat))) (lo hi : Nat) :
    Option (List (Nat × List (Nat × Nat)) × Nat × Nat) :=
  binaryGo synth (hi + 2) lo hi [] 0

/-! ### Quantum circuits and the schedule materializer -/

/-- A circuit instruction: Hadamard, CZ, or an arbitrary instruction acting
on the listed qubits (inputs may contain gates of any kind; the utils
counters only inspect how many qubits an instruction touches). -/
inductive Gate where
  | h : Nat → Gate
  | cz : Nat → Nat → Gate
  | other : List Nat → Gate
deriving DecidableEq

/-- The qubit list of an instruction (`qubits` in `circuit.data`). -/
def Gate.qubitCount : Gate → Nat
  | .h _ => 1
  | .cz _ _ => 2
  | .other qs => qs.length

/-- A Qiskit `QuantumCircuit`, reduced to the two attributes the synthesis
code reads: its `name` and its instruction list. -/
structure QCircuit where
  name : String
  gates : List Gate
deriving DecidableEq

/-- `utils.count_single_qubit_gates`: instructions touching exactly 1 qubit. -/
def count_single_qubit_gates (c : QCircuit) : Nat :=
  (c.gates.filter fun g => g.qubitCount == 1).length

/-- `utils.count_two_qubit_gates`: instructions touching exactly 2 qubits. -/
def count_two_qubit_gates (c : QCircuit) : Nat :=
  (c.gates.filter fun g => g.qubitCount == 2).length

/-- Python's `", ".join`: comma-space between consecutive items. -/
def commaSep : List String → String
  | [] => ""
  | [s] => s
  | s :: rest => s ++ ", " ++ commaSep rest

/-- Python's `str` of a row (`[0, 1]` style). -/
def pyRenderRow (row : List Nat) : String :=
  "[" ++ commaSep (row.map toString) ++ "]"

/-- Python's `str` of a nested list (`[[0, 1], [1, 0]]` style), as produced
by `"... %s" % (adjacency_matrix)`. -/
def pyRenderMatrix (A : List (List Nat)) : String :=
  "[" ++ commaSep (A.map pyRenderRow) ++ "]"

/-- `_map_synthesis_depth_optimal_mapping_to_qcircuit` (identical in both
modules): Hadamards on all qubits first, then the CZ gates of each stored
layer, layers iterated in the mapping's own (insertion) order. -/
def map_mapping_to_qcircuit (mapping : List (Nat × List (Nat × Nat)))
    (A : List (List Nat)) : QCircuit :=
  { name := "Depth optimal circuit of Graphstate g: " ++ pyRenderMatrix A,
    gates := ((List.range (nodeCount A)).map Gate.h) ++
      mapping.flatMap fun layer => layer.2.map fun e => Gate.cz e.1 e.2 }

/-! ### `utils.extract_adjacency_matrix` -/

/-- The scanner behind the regex `\d+`: collect every maximal run of digits,
as a number (the accumulator holds the value of the current partial run). -/
def digitRunsGo : List Char → Option Nat → List Nat
  | [], none => []
  | [], some v => [v]
  | ch :: rest, acc =>
      if ch.isDigit then
        digitRunsGo rest (some (acc.getD 0 * 10 + (ch.toNat - 48)))
      else
        match acc with
        | none => digitRunsGo rest none
        | some v => v :: digitRunsGo rest none

/-- `re.findall(r'\d+', s)` mapped through `int`. -/
def digitRuns (s : String) : List Nat := digitRunsGo s.data none

/-- The integer square root, counting the positive squares not exceeding the
argument (an executable model of Python's `int(len ** 0.5)`, exact on the
perfect-square lengths the pipeline produces). -/
def isqrt (n : Nat) : Nat :=
  ((List.range n).filter fun k => (k + 1) * (k + 1) ≤ n).length

/-- `utils.extract_adjacency_matrix`: all numbers in the circuit name,
reshaped into an `n × n` matrix with `n = int(len(numbers) ** 0.5)`. -/
def extract_adjacency_matrix (circuit_name : String) : List (List Nat) :=
  let numbers := digitRuns circuit_name
  let n := isqrt numbers.length
  (List.range n).map fun i => (numbers.drop (i * n)).take n

/-! ### Top-level entry points -/

/-- `SynthesisResults` (`synthesis_result.py`): the value record returned to
the caller.  `circuit.draw()` is modelled by the circuit itself (rendering is
an opaque pure function, spec section 6); the wall-clock `runtime` of the
searched branch is an opaque measurement threaded in as `elapsed`. -/
structure SynthesisResults where
  circuit : QCircuit
  depth : Nat
  gates : Nat
  runtime : Nat
  single_qubit_gates : Nat
  solver_calls : Nat
  tableau : String
  two_qubit_gates : Nat
deriving DecidableEq

/-- Build the `SynthesisResults` record exactly as both `synthesize_*`
functions do from a produced circuit, depth, runtime and solver-call count. -/
def mkResults (qc : QCircuit) (depth runtime solver_calls : Nat) :
    SynthesisResults :=
  { circuit := qc
    depth := depth
    gates := count_single_qubit_gates qc + count_two_qubit_gates qc
    runtime := runtime
    single_qubit_gates := count_single_qubit_gates qc
    solver_calls := solver_calls
    tableau := "Not available yet"
    two_qubit_gates := count_two_qubit_gates qc }

namespace EC

/-- `_linear_search` of the edge-colouring module: probes start at
`_max_outgoing_connections` and end at the node count. -/
def linear_search (A : List (List Nat)) (sb : Bool) : QCircuit × Nat × Nat :=
  let (m, d, k) :=
    linearSearch (fun d => ecSynthesis A d sb)
      (max_outgoing_connections A).toNat (nodeCount A)
  (map_mapping_to_qcircuit m A, d, k)

/-- `_binary_search` of the edge-colouring module. -/
def binary_search (A : List (List Nat)) (sb : Bool) :
    Option (QCircuit × Nat × Nat) :=
  match binarySearch (fun d => ecSynthesis A d sb)
      (max_outgoing_connections A).toNat (nodeCount A) with
  | none => none
  | some (m, d, k) => some (map_mapping_to_qcircuit m A, d, k)

/-- `synthesize_graph_state_edge_colouring`.  `none` models the (proved
unreachable on valid inputs) non-termination of the binary-search loop. -/
def synthesize (elapsed : Nat) (circuit : QCircuit) (sb lin : Bool) :
    Option (QCircuit × SynthesisResults) :=
  let A := extract_adjacency_matrix circuit.name
  if A.all (fun row => row.all fun cell => cell == 0) then
    some (circuit, mkResults circuit 0 0 0)
  else
    match (if lin then some (linear_search A sb) else binary_search A sb) with
    | none => none
    | some (qc, depth, solver_calls) =>
        some (qc, mkResults qc depth elapsed solver_calls)

end EC

namespace DS

/-- `_linear_search` of the sat-solvers module: probes start at `0`. -/
def linear_search (A : List (List Nat)) (sb : Bool) : QCircuit × Nat × Nat :=
  let (m, d, k) := linearSearch (fun d => dsSynthesis A d sb) 0 (nodeCount A)
  (map_mapping_to_qcircuit m A, d, k)

/-- `_binary_search` of the sat-solvers module. -/
def binary_search (A : List (List Nat)) (sb : Bool) :
    Option (QCircuit × Nat × Nat) :=
  match binarySearch (fun d => dsSynthesis A d sb) 0 (nodeCount A) with
  | none => none
  | some (m, d, k) => some (map_mapping_to_qcircuit m A, d, k)

/-- `synthesize_graph_state_sat_solver`. -/
def synthesize (elapsed : Nat) (circuit : QCircuit) (sb lin : Bool) :
    Option (QCircuit × SynthesisResults) :=
  let A := extract_adjacency_matrix circuit.name
  if A.all (fun row => row.all fun cell => cell == 0) then
    some (circuit, mkResults circuit 0 0 0)
  else
    match (if lin then some (linear_search A sb) else binary_search A sb) with
    | none => none
    | some (qc, depth, solver_calls) =>
        some (qc, mkResults qc depth elapsed solver_calls)

end DS

/-! ### Basic lemmas about the data model -/

theorem mem_edgeList {A : List (List Nat)} {p : Nat × Nat} :
    p ∈ edgeList A ↔
      p.1 < nodeCount A ∧ p.2 < p.1 ∧ entry A p.1 p.2 = 1 := by
  rcases p with ⟨i, j⟩
  simp only [edgeList, List.mem_flatMap, List.mem_map, List.mem_filter,
    List.mem_range, beq_iff_eq]
  constructor
  · rintro ⟨a, ha, b, ⟨hb, he⟩, heq⟩
    injection heq with h1 h2
    subst h1; subst h2
    exact ⟨ha, hb, he⟩
  · rintro ⟨hi, hj, he⟩
    exact ⟨i, hi, j, ⟨hj, he⟩, rfl⟩

theorem edgeList_ne_nil_iff {A : List (List Nat)} :
    edgeList A ≠ [] ↔ HasEdge A := by
  constructor
  · intro h
    rcases List.exists_mem_of_ne_nil _ h with ⟨p, hp⟩
    rcases mem_edgeList.mp hp with ⟨h1, h2, h3⟩
    exact ⟨p.1, h1, p.2, h2, h3⟩
  · rintro ⟨i, hi, j, hj, he⟩
    exact List.ne_nil_of_mem ((mem_edgeList (p := (i, j))).mpr ⟨hi, hj, he⟩)

theorem mem_allTuples {d m : Nat} {cs : List Nat} :
    cs ∈ allTuples d m ↔ cs.length = m ∧ ∀ x ∈ cs, x < d := by
  induction m generalizing cs with
  | zero =>
      simp only [allTuples, List.mem_singleton]
      constructor
      · rintro rfl; simp
      · rintro ⟨h, _⟩; exact List.eq_nil_of_length_eq_zero h
  | succ m ih =>
      simp only [allTuples, List.mem_flatMap, List.mem_map, List.mem_range]
      constructor
      · rintro ⟨t, ht, x, hx, rfl⟩
        rcases ih.mp ht with ⟨hlen, hall⟩
        refine ⟨by simp [hlen], ?_⟩
        intro y hy
        rcases List.mem_cons.mp hy with rfl | hy
        · exact hx
        · exact hall y hy
      · rintro ⟨hlen, hall⟩
        match cs, hlen with
        | x :: t, hlen =>
            refine ⟨t, ih.mpr ⟨by simpa using hlen, fun y hy => hall y (by simp [hy])⟩,
              x, hall x (by simp), rfl⟩

theorem colorFun_map {A : List (List Nat)} (f : Nat × Nat → Nat) {p : Nat × Nat}
    (hp : p ∈ edgeList A) :
    colorFun A ((edgeList A).map f) p.1 p.2 = f p := by
  unfold colorFun
  have : ∀ (l : List (Nat × Nat)), p ∈ l →
      ((l.zip (l.map f)).lookup p) = some (f p) := by
    intro l hl
    induction l with
    | nil => cases hl
    | cons q tl ih =>
        simp only [List.map_cons, List.zip_cons_cons, List.lookup]
        by_cases hq : p = q
        · subst hq; simp
        · have : p ∈ tl := by
            rcases List.mem_cons.mp hl with h | h
            · exact absurd h hq
            · exact h
          have hbeq : (p == q) = false := beq_false_of_ne hq
          rw [hbeq]
          exact ih this
  rw [this (edgeList A) hp]
  rfl

/-! ### Lemmas about the model-readout grouping -/

theorem addToKey_flatMap {α : Type} (acc : List (Nat × List α)) (k : Nat) (x : α) :
    List.Perm ((addToKey acc k x).flatMap Prod.snd) (x :: acc.flatMap Prod.snd) := by
  induction acc with
  | nil => simp [addToKey]
  | cons hd tl ih =>
      rcases hd with ⟨k', xs⟩
      by_cases h : k' = k
      · simp only [addToKey, if_pos h, List.flatMap_cons]
        have h1 : List.Perm ((xs ++ [x]) ++ tl.flatMap Prod.snd)
            (([x] ++ xs) ++ tl.flatMap Prod.snd) :=
          List.Perm.append_right _ List.perm_append_comm
        simp
      · simp only [addToKey, if_neg h, List.flatMap_cons]
        exact (List.Perm.append_left xs ih).trans List.perm_middle

theorem groupByColor_flatMap_perm (es : List (Nat × Nat)) (c : Nat → Nat → Nat) :
    List.Perm ((groupByColor es c).flatMap Prod.snd) es := by
  suffices h : ∀ (acc : List (Nat × List (Nat × Nat))),
      List.Perm
        ((es.foldl (fun acc e => addToKey acc (c e.1 e.2) e) acc).flatMap Prod.snd)
        (acc.flatMap Prod.snd ++ es) by
    simpa using h []
  induction es with
  | nil => intro acc; simp
  | cons e tl ih =>
      intro acc
      simp only [List.foldl_cons]
      have h1 := ih (addToKey acc (c e.1 e.2) e)
      have h2 : List.Perm ((addToKey acc (c e.1 e.2) e).flatMap Prod.snd ++ tl)
          ((e :: acc.flatMap Prod.snd) ++ tl) :=
        List.Perm.append_right _ (addToKey_flatMap acc _ e)
      have h3 : List.Perm ((e :: acc.flatMap Prod.snd) ++ tl)
          (acc.flatMap Prod.snd ++ (e :: tl)) := by
        have := (@List.perm_middle _ e (acc.flatMap Prod.snd) tl).symm
        simpa using this
      exact (h1.trans h2).trans h3

theorem addToKey_mem {α : Type} {acc : List (Nat × List α)} {k0 k : Nat}
    {x e : α} {l : List α}
    (hmem : (k, l) ∈ addToKey acc k0 x) (he : e ∈ l) :
    (∃ l', (k, l') ∈ acc ∧ e ∈ l') ∨ (e = x ∧ k = k0) := by
  induction acc with
  | nil =>
      have h1 : (k, l) = (k0, [x]) := by simpa [addToKey] using hmem
      injection h1 with hk hl
      subst hk; subst hl
      right
      simpa using he
  | cons hd tl ih =>
      rcases hd with ⟨k', xs⟩
      by_cases h : k' = k0
      · rw [show addToKey ((k', xs) :: tl) k0 x = (k', xs ++ [x]) :: tl by
          simp [addToKey, h]] at hmem
        rcases List.mem_cons.mp hmem with h1 | h1
        · injection h1 with hk hl
          subst hk; subst hl
          rcases List.mem_append.mp he with h2 | h2
          · exact Or.inl ⟨xs, by simp, h2⟩
          · exact Or.inr ⟨by simpa using h2, h⟩
        · exact Or.inl ⟨l, by simp [h1], he⟩
      · rw [show addToKey ((k', xs) :: tl) k0 x = (k', xs) :: addToKey tl k0 x by
          simp [addToKey, h]] at hmem
        rcases List.mem_cons.mp hmem with h1 | h1
        · injection h1 with hk hl
          subst hk; subst hl
          exact Or.inl ⟨l, by simp, he⟩
        · rcases ih h1 with ⟨l', hl', he'⟩ | h2
          · exact Or.inl ⟨l', by simp [hl'], he'⟩
          · exact Or.inr h2

theorem groupByColor_mem {es : List (Nat × Nat)} {c : Nat → Nat → Nat}
    {k : Nat} {l : List (Nat × Nat)} {e : Nat × Nat}
    (hmem : (k, l) ∈ groupByColor es c) (he : e ∈ l) :
    e ∈ es ∧ c e.1 e.2 = k := by
  suffices h : ∀ (acc : List (Nat × List (Nat × Nat))),
      (k, l) ∈ es.foldl (fun acc e => addToKey acc (c e.1 e.2) e) acc → e ∈ l →
        (∃ l', (k, l') ∈ acc ∧ e ∈ l') ∨ (e ∈ es ∧ c e.1 e.2 = k) by
    rcases h [] hmem he with ⟨l', hl', _⟩ | h
    · simp at hl'
    · exact h
  clear hmem
  induction es with
  | nil => intro acc h he; exact Or.inl ⟨l, h, he⟩
  | cons q tl ih =>
      intro acc h he
      simp only [List.foldl_cons] at h
      rcases ih _ h he with ⟨l', hl', he'⟩ | hr
      · rcases addToKey_mem hl' he' with ⟨l'', hl'', he''⟩ | ⟨he2, hk2⟩
        · exact Or.inl ⟨l'', hl'', he''⟩
        · subst he2; subst hk2
          exact Or.inr ⟨by simp, rfl⟩
      · exact Or.inr ⟨by simp [hr.1], hr.2⟩

theorem addToKey_ne_nil {α : Type} (acc : List (Nat × List α)) (k : Nat) (x : α) :
    addToKey acc k x ≠ [] := by
  cases acc with
  | nil => simp [addToKey]
  | cons hd tl =>
      rcases hd with ⟨k', xs⟩
      unfold addToKey
      by_cases h : k' = k <;> simp [h]

theorem foldl_addToKey_ne_nil (c : Nat → Nat → Nat) :
    ∀ (tl : List (Nat × Nat)) (acc : List (Nat × List (Nat × Nat))), acc ≠ [] →
      tl.foldl (fun acc e => addToKey acc (c e.1 e.2) e) acc ≠ []
  | [], acc, hacc => by simpa using hacc
  | q :: tl2, acc, hacc => by
      simp only [List.foldl_cons]
      exact foldl_addToKey_ne_nil c tl2 _ (addToKey_ne_nil acc _ q)

theorem groupByColor_eq_nil_iff (es : List (Nat × Nat)) (c : Nat → Nat → Nat) :
    groupByColor es c = [] ↔ es = [] := by
  constructor
  · intro h
    cases es with
    | nil => rfl
    | cons e tl =>
        exact absurd (by simpa [groupByColor] using h)
          (foldl_addToKey_ne_nil c tl _ (addToKey_ne_nil [] _ e))
  · rintro rfl; rfl

/-! ### Proper edge colourings: the common semantic core of both encoders -/

theorem entry_symm {A : List (List Nat)} (hs : IsSimple A) {i j : Nat}
    (hi : i < nodeCount A) (hj : j < nodeCount A) : entry A i j = entry A j i :=
  hs.2.1 i hi j hj

theorem entry_diag {A : List (List Nat)} (hs : IsSimple A) {i : Nat}
    (hi : i < nodeCount A) : entry A i i = 0 :=
  hs.2.2.1 i hi

/-- Two node pairs share an endpoint. -/
def ShareNode (p q : Nat × Nat) : Prop :=
  p.1 = q.1 ∨ p.1 = q.2 ∨ p.2 = q.1 ∨ p.2 = q.2

instance (p q : Nat × Nat) : Decidable (ShareNode p q) := by
  unfold ShareNode; infer_instance

/-- Spec-side formulation (section 3, *Assignment*): a colouring of the
canonical edges with colours `< d` in which edges sharing an endpoint get
different colours. -/
def Proper (A : List (List Nat)) (d : Nat) (c : Nat → Nat → Nat) : Prop :=
  (∀ p ∈ edgeList A, c p.1 p.2 < d) ∧
  (∀ p ∈ edgeList A, ∀ q ∈ edgeList A, p ≠ q → ShareNode p q →
    c p.1 p.2 ≠ c q.1 q.2)

/-- The conflict constraints common to both encoders, in the exact loop shape
the source generates them. -/
def ConflictCore (A : List (List Nat)) (c : Nat → Nat → Nat) : Prop :=
  ∀ i < nodeCount A, ∀ j < i, entry A i j = 1 →
    (∀ k < j, entry A i k = 1 → c i j ≠ c i k) ∧
    (∀ k < i, entry A k j = 1 → (if j > k then c i j ≠ c j k else c i j ≠ c k j))

theorem ecConflicts_core {A : List (List Nat)} {c : Nat → Nat → Nat}
    (h : ecConflicts A c) : ConflictCore A c := by
  intro i hi j hj he
  obtain ⟨h1, h2⟩ := h i hi j hj he
  refine ⟨?_, h2⟩
  intro k hk hek
  have := h1 k hk hek
  rwa [if_pos (lt_trans hk hj)] at this

theorem dsConflicts_core {A : List (List Nat)} {c : Nat → Nat → Nat}
    (hs : IsSimple A) (h : dsConflicts A c) : ConflictCore A c := by
  intro i hi j hj he
  obtain ⟨h1, h2⟩ := h i hi j hj he
  constructor
  · intro k hk hek
    have := h1 k hk
    rwa [if_pos hek] at this
  · intro k hk hek
    have hkj : k ≠ j := by
      intro hkeq
      subst hkeq
      rw [entry_diag hs (lt_trans hk hi)] at hek
      exact absurd hek (by simp)
    have := h2 k hk hkj
    by_cases hjk : entry A j k = 1
    · rwa [if_pos hjk] at this
    · rwa [if_neg hjk] at this

theorem conflictCore_proper {A : List (List Nat)} {c : Nat → Nat → Nat}
    (hs : IsSimple A) (hc : ConflictCore A c) :
    ∀ p ∈ edgeList A, ∀ q ∈ edgeList A, p ≠ q → ShareNode p q →
      c p.1 p.2 ≠ c q.1 q.2 := by
  rintro ⟨i, j⟩ hp ⟨k, l⟩ hq hne hsh
  obtain ⟨hi, hj, hije⟩ := mem_edgeList.mp hp
  obtain ⟨hk, hl, hkle⟩ := mem_edgeList.mp hq
  simp only at hi hj hije hk hl hkle ⊢
  rcases hsh with h | h | h | h
  · -- i = k: the two edges share their larger endpoint
    simp only at h
    subst h
    have hjl : j ≠ l := fun hjl => hne (by simp [hjl])
    rcases lt_or_gt_of_ne hjl with hlt | hlt
    · exact ((hc i hi l hl hkle).1 j hlt hije).symm
    · exact (hc i hi j hj hije).1 l hlt hkle
  · -- i = l: edge (i, j) and edge (k, i) with i < k
    simp only at h
    subst h
    have hji : entry A j i = 1 := by
      rw [← entry_symm hs hi (lt_trans hj hi)]
      exact hije
    have := (hc k hk i hl hkle).2 j (lt_trans hj hl) hji
    rw [if_pos hj] at this
    exact this.symm
  · -- j = k: edge (i, j) and edge (j, l) with l < j
    simp only at h
    subst h
    have hlj : entry A l j = 1 := by
      rw [entry_symm hs (lt_trans hl hk) hk]
      exact hkle
    have := (hc i hi j hj hije).2 l (lt_trans hl hj) hlj
    rw [if_pos hl] at this
    exact this
  · -- j = l: the two edges share their smaller endpoint
    simp only at h
    subst h
    have hik : i ≠ k := fun hik => hne (by simp [hik])
    rcases lt_or_gt_of_ne hik with hlt | hlt
    · have := (hc k hk j hl hkle).2 i hlt hije
      rw [if_neg (by omega)] at this
      exact this.symm
    · have := (hc i hi j hj hije).2 k hlt hkle
      rw [if_neg (by omega)] at this
      exact this

theorem ecHolds_proper {A : List (List Nat)} {d : Nat} {sb : Bool}
    {c : Nat → Nat → Nat} (hs : IsSimple A) (h : ecHolds A d sb c) :
    Proper A d c := by
  obtain ⟨hb, hcf, _⟩ := h
  constructor
  · rintro ⟨i, j⟩ hp
    obtain ⟨hi, hj, he⟩ := mem_edgeList.mp hp
    exact hb i hi j hj he
  · exact conflictCore_proper hs (ecConflicts_core hcf)

theorem dsHolds_proper {A : List (List Nat)} {d : Nat} {sb : Bool}
    {c : Nat → Nat → Nat} (hs : IsSimple A) (h : dsHolds A d sb c) :
    Proper A d c := by
  obtain ⟨hb, hcf, _⟩ := h
  constructor
  · rintro ⟨i, j⟩ hp
    obtain ⟨hi, hj, he⟩ := mem_edgeList.mp hp
    have := hb i hi j hj
    rwa [if_pos he] at this
  · exact conflictCore_proper hs (dsConflicts_core hs hcf)

theorem proper_ecHolds {A : List (List Nat)} {d : Nat} {c : Nat → Nat → Nat}
    (hs : IsSimple A) (h : Proper A d c) : ecHolds A d false c := by
  obtain ⟨hb, hd⟩ := h
  refine ⟨?_, ?_, by simp⟩
  · intro i hi j hj he
    exact hb (i, j) (mem_edgeList.mpr ⟨hi, hj, he⟩)
  · intro i hi j hj he
    have hp : (i, j) ∈ edgeList A := mem_edgeList.mpr ⟨hi, hj, he⟩
    constructor
    · intro k hk hek
      rw [if_pos (lt_trans hk hj)]
      exact hd (i, j) hp (i, k) (mem_edgeList.mpr ⟨hi, lt_trans hk hj, hek⟩)
        (by simp; omega) (Or.inl rfl)
    · intro k hk hek
      have hkj : k ≠ j := by
        intro hkeq
        subst hkeq
        rw [entry_diag hs (lt_trans hk hi)] at hek
        exact absurd hek (by simp)
      by_cases hjk : j > k
      · rw [if_pos hjk]
        have hq : (j, k) ∈ edgeList A := by
          refine mem_edgeList.mpr ⟨lt_trans hj hi, hjk, ?_⟩
          rw [entry_symm hs (lt_trans hj hi) (lt_trans hk hi)]
          exact hek
        exact hd (i, j) hp (j, k) hq (by simp; omega) (Or.inr (Or.inr (Or.inl rfl)))
      · rw [if_neg hjk]
        have hq : (k, j) ∈ edgeList A := by
          refine mem_edgeList.mpr ⟨lt_trans hk hi, ?_, hek⟩
          omega
        exact hd (i, j) hp (k, j) hq (by simp; omega)
          (Or.inr (Or.inr (Or.inr rfl)))

/-- Completing a proper edge colouring to a full model of the
direct-scheduling instance: every identity variable takes the value `d`. -/
def dsExtend (A : List (List Nat)) (d : Nat) (c : Nat → Nat → Nat)
    (i j : Nat) : Nat :=
  if entry A i j = 1 then c i j else d

theorem proper_dsHolds {A : List (List Nat)} {d : Nat} {c : Nat → Nat → Nat}
    (hs : IsSimple A) (h : Proper A d c) (sb : Bool) :
    dsHolds A d sb (dsExtend A d c) := by
  obtain ⟨hb, hd⟩ := h
  have hbnd : ∀ i < nodeCount A, ∀ j < i, entry A i j = 1 → c i j < d := by
    intro i hi j hj he
    exact hb (i, j) (mem_edgeList.mpr ⟨hi, hj, he⟩)
  refine ⟨?_, ?_, ?_⟩
  · intro i hi j hj
    by_cases he : entry A i j = 1
    · rw [if_pos he]
      unfold dsExtend
      rw [if_pos he]
      exact hbnd i hi j hj he
    · rw [if_neg he]
      trivial
  · intro i hi j hj he
    have hp : (i, j) ∈ edgeList A := mem_edgeList.mpr ⟨hi, hj, he⟩
    have hcij : dsExtend A d c i j = c i j := if_pos he
    constructor
    · intro k hk
      have hmain : dsExtend A d c i j ≠ dsExtend A d c i k := by
        by_cases hek : entry A i k = 1
        · rw [hcij]
          unfold dsExtend
          rw [if_pos hek]
          exact hd (i, j) hp (i, k) (mem_edgeList.mpr ⟨hi, lt_trans hk hj, hek⟩)
            (by simp; omega) (Or.inl rfl)
        · rw [hcij]
          unfold dsExtend
          rw [if_neg hek]
          exact Nat.ne_of_lt (hbnd i hi j hj he)
      by_cases hek : entry A i k = 1
      · rwa [if_pos hek]
      · rwa [if_neg hek]
    · intro k hk hkj
      have hmain : if j > k then dsExtend A d c i j ≠ dsExtend A d c j k
          else dsExtend A d c i j ≠ dsExtend A d c k j := by
        by_cases hjk : j > k
        · rw [if_pos hjk, hcij]
          by_cases hejk : entry A j k = 1
          · unfold dsExtend
            rw [if_pos hejk]
            exact hd (i, j) hp (j, k)
              (mem_edgeList.mpr ⟨lt_trans hj hi, hjk, hejk⟩)
              (by simp; omega) (Or.inr (Or.inr (Or.inl rfl)))
          · unfold dsExtend
            rw [if_neg hejk]
            exact Nat.ne_of_lt (hbnd i hi j hj he)
        · rw [if_neg hjk, hcij]
          by_cases hekj : entry A k j = 1
          · unfold dsExtend
            rw [if_pos hekj]
            exact hd (i, j) hp (k, j)
              (mem_edgeList.mpr ⟨lt_trans hk hi, by omega, hekj⟩)
              (by simp; omega) (Or.inr (Or.inr (Or.inr rfl)))
          · unfold dsExtend
            rw [if_neg hekj]
            exact Nat.ne_of_lt (hbnd i hi j hj he)
      by_cases hejk : entry A j k = 1
      · rwa [if_pos hejk]
      · rwa [if_neg hejk]
  · intro _ i hi j hj he
    have hcij : dsExtend A d c i j = c i j := if_pos he
    constructor
    · intro k hk hek
      rw [hcij]
      unfold dsExtend
      rw [if_neg hek]
      exact hbnd i hi j hj he
    · intro k hk hkj hejk
      have hekj : entry A k j ≠ 1 := by
        rw [entry_symm hs (lt_trans hk hi) (lt_trans hj hi)]
        exact hejk
      by_cases hjk : j > k
      · rw [if_pos hjk, hcij]
        unfold dsExtend
        rw [if_neg hejk]
        exact hbnd i hi j hj he
      · rw [if_neg hjk, hcij]
        unfold dsExtend
        rw [if_neg hekj]
        exact hbnd i hi j hj he

/-! ### Monotonicity in the depth bound -/

theorem ecHolds_mono {A : List (List Nat)} {d1 d2 : Nat} {sb : Bool}
    {c : Nat → Nat → Nat} (h : ecHolds A d1 sb c) (hle : d1 ≤ d2) :
    ecHolds A d2 sb c := by
  obtain ⟨hb, hcf, hsb⟩ := h
  exact ⟨fun i hi j hj he => lt_of_lt_of_le (hb i hi j hj he) hle, hcf, hsb⟩

theorem dsHolds_mono {A : List (List Nat)} {d1 d2 : Nat} {sb : Bool}
    {c : Nat → Nat → Nat} (h : dsHolds A d1 sb c) (hle : d1 ≤ d2) :
    dsHolds A d2 sb c := by
  obtain ⟨hb, hcf, hsb⟩ := h
  refine ⟨?_, hcf, hsb⟩
  intro i hi j hj
  have := hb i hi j hj
  by_cases he : entry A i j = 1
  · rw [if_pos he] at this ⊢
    exact lt_of_lt_of_le this hle
  · rw [if_neg he]
    trivial

theorem proper_mono {A : List (List Nat)} {d1 d2 : Nat} {c : Nat → Nat → Nat}
    (h : Proper A d1 c) (hle : d1 ≤ d2) : Proper A d2 c :=
  ⟨fun p hp => lt_of_lt_of_le (h.1 p hp) hle, h.2⟩

/-! ### A proper colouring always exists at depth = node count -/

theorem mod_add_cancel {n a b x : Nat} (ha : a < n) (hb : b < n)
    (h : (x + a) % n = (x + b) % n) : a = b := by
  have hmod : a % n = b % n := Nat.ModEq.add_left_cancel' x h
  rwa [Nat.mod_eq_of_lt ha, Nat.mod_eq_of_lt hb] at hmod

/-- `(i, j) ↦ (i + j) % n` is a proper edge colouring of any simple graph on
`n` nodes with `n` colours: two distinct edges sharing an endpoint have
different sums modulo `n`. -/
theorem exists_proper_nodeCount (A : List (List Nat)) :
    Proper A (nodeCount A) (fun i j => (i + j) % nodeCount A) := by
  constructor
  · rintro ⟨i, j⟩ hp
    obtain ⟨hi, _, _⟩ := mem_edgeList.mp hp
    exact Nat.mod_lt _ (by omega)
  · rintro ⟨i, j⟩ hp ⟨k, l⟩ hq hne hsh
    obtain ⟨hi, hj, _⟩ := mem_edgeList.mp hp
    obtain ⟨hk, hl, _⟩ := mem_edgeList.mp hq
    simp only at hi hj hk hl ⊢
    intro heq
    rcases hsh with h | h | h | h
    · simp only at h
      subst h
      exact hne (by simp [mod_add_cancel (lt_trans hj hi) (lt_trans hl hk) heq])
    · simp only at h
      subst h
      rw [Nat.add_comm k i] at heq
      have := mod_add_cancel (lt_trans hj hi) hk heq
      omega
    · simp only at h
      subst h
      rw [Nat.add_comm i j] at heq
      have := mod_add_cancel hi (lt_trans hl hk) heq
      omega
    · simp only at h
      subst h
      rw [Nat.add_comm i j, Nat.add_comm k j] at heq
      exact hne (by simp [mod_add_cancel hi hk heq])

/-! ### Every satisfiable depth is at least the maximum degree -/

theorem proper_degree_le {A : List (List Nat)} {d : Nat} {c : Nat → Nat → Nat}
    (hs : IsSimple A) (h : Proper A d c) :
    ∀ v < nodeCount A, degree A v ≤ d := by
  intro v hv
  obtain ⟨hb, hdist⟩ := h
  have hcard : (((Finset.range (nodeCount A)).filter
      fun j => entry A v j = 1)).card ≤ (Finset.range d).card := by
    apply Finset.card_le_card_of_injOn (fun u => if u < v then c v u else c u v)
    · intro u hu
      simp only [Finset.mem_filter, Finset.mem_range] at hu
      obtain ⟨hun, hue⟩ := hu
      have huv : u ≠ v := by
        intro huv
        subst huv
        rw [entry_diag hs hun] at hue
        exact absurd hue (by simp)
      simp only [Finset.mem_range]
      by_cases hlt : u < v
      · rw [if_pos hlt]
        exact hb (v, u) (mem_edgeList.mpr ⟨hv, hlt, hue⟩)
      · rw [if_neg hlt]
        have hvu : v < u := by omega
        refine hb (u, v) (mem_edgeList.mpr ⟨hun, hvu, ?_⟩)
        rw [entry_symm hs hun hv]
        exact hue
    · intro u1 hu1 u2 hu2 heq12
      simp only [Finset.coe_filter, Set.mem_setOf_eq, Finset.mem_range] at hu1 hu2
      obtain ⟨h1n, h1e⟩ := hu1
      obtain ⟨h2n, h2e⟩ := hu2
      by_contra hne
      simp only at heq12
      have h1v : u1 ≠ v := by
        intro h1v; subst h1v
        rw [entry_diag hs h1n] at h1e
        exact absurd h1e (by simp)
      have h2v : u2 ≠ v := by
        intro h2v; subst h2v
        rw [entry_diag hs h2n] at h2e
        exact absurd h2e (by simp)
      have h2sym : entry A u2 v = 1 := by
        rw [entry_symm hs h2n hv]; exact h2e
      have h1sym : entry A u1 v = 1 := by
        rw [entry_symm hs h1n hv]; exact h1e
      by_cases hl1 : u1 < v <;> by_cases hl2 : u2 < v
      · rw [if_pos hl1, if_pos hl2] at heq12
        exact hdist (v, u1) (mem_edgeList.mpr ⟨hv, hl1, h1e⟩)
          (v, u2) (mem_edgeList.mpr ⟨hv, hl2, h2e⟩)
          (by simpa using hne) (Or.inl rfl) heq12
      · rw [if_pos hl1, if_neg hl2] at heq12
        exact hdist (v, u1) (mem_edgeList.mpr ⟨hv, hl1, h1e⟩)
          (u2, v) (mem_edgeList.mpr ⟨h2n, by omega, h2sym⟩)
          (by simp; intro hvu2; omega) (Or.inr (Or.inl rfl)) heq12
      · rw [if_neg hl1, if_pos hl2] at heq12
        exact hdist (u1, v) (mem_edgeList.mpr ⟨h1n, by omega, h1sym⟩)
          (v, u2) (mem_edgeList.mpr ⟨hv, hl2, h2e⟩)
          (by simp; intro hvu1; omega) (Or.inr (Or.inr (Or.inl rfl))) heq12
      · rw [if_neg hl1, if_neg hl2] at heq12
        exact hdist (u1, v) (mem_edgeList.mpr ⟨h1n, by omega, h1sym⟩)
          (u2, v) (mem_edgeList.mpr ⟨h2n, by omega, h2sym⟩)
          (by simpa using hne) (Or.inr (Or.inr (Or.inr rfl))) heq12
  simpa [degree] using hcard

theorem proper_maxDegree_le {A : List (List Nat)} {d : Nat} {c : Nat → Nat → Nat}
    (hs : IsSimple A) (h : Proper A d c) : maxDegree A ≤ d := by
  apply Finset.sup_le
  intro v hv
  exact proper_degree_le hs h v (Finset.mem_range.mp hv)

/-! ### The constraint sets only read canonical edge variables -/

theorem maxRowIndexGo_lt :
    ∀ (rows : List (List Nat)) (i0 : Nat) (bc : Int) (best : Nat),
      maxRowIndexGo rows i0 bc best < i0 + rows.length ∨
        maxRowIndexGo rows i0 bc best = best
  | [], i0, bc, best => Or.inr rfl
  | row :: rest, i0, bc, best => by
      unfold maxRowIndexGo
      by_cases h : (row.sum : Int) > bc
      · rw [if_pos h]
        rcases maxRowIndexGo_lt rest (i0 + 1) (row.sum : Int) i0 with h1 | h1
        · left; simpa [Nat.add_comm, Nat.add_left_comm] using h1
        · left; rw [h1]; simp
      · rw [if_neg h]
        rcases maxRowIndexGo_lt rest (i0 + 1) bc best with h1 | h1
        · left; simpa [Nat.add_comm, Nat.add_left_comm] using h1
        · right; exact h1

theorem maxRowIndex_lt {A : List (List Nat)} (h : 0 < nodeCount A) :
    maxRowIndex A < nodeCount A := by
  unfold maxRowIndex
  rcases maxRowIndexGo_lt A 0 (-1) 0 with h1 | h1
  · simpa [nodeCount] using h1
  · rw [h1]; exact h

theorem ecHolds_congr {A : List (List Nat)} {d : Nat} {sb : Bool}
    {c c' : Nat → Nat → Nat} (hs : IsSimple A)
    (hagree : ∀ p ∈ edgeList A, c p.1 p.2 = c' p.1 p.2)
    (h : ecHolds A d sb c) : ecHolds A d sb c' := by
  obtain ⟨hb, hcf, hsb⟩ := h
  have hag : ∀ i j, i < nodeCount A → j < i → entry A i j = 1 → c i j = c' i j := by
    intro i j hi hj he
    exact hagree (i, j) (mem_edgeList.mpr ⟨hi, hj, he⟩)
  refine ⟨?_, ?_, ?_⟩
  · intro i hi j hj he
    rw [← hag i j hi hj he]
    exact hb i hi j hj he
  · intro i hi j hj he
    obtain ⟨h1, h2⟩ := hcf i hi j hj he
    constructor
    · intro k hk hek
      have := h1 k hk hek
      rw [if_pos (lt_trans hk hj)] at this ⊢
      rw [← hag i j hi hj he, ← hag i k hi (lt_trans hk hj) hek]
      exact this
    · intro k hk hek
      have hkj : k ≠ j := by
        intro hkeq
        subst hkeq
        rw [entry_diag hs (lt_trans hk hi)] at hek
        exact absurd hek (by simp)
      have := h2 k hk hek
      by_cases hjk : j > k
      · rw [if_pos hjk] at this ⊢
        have hejk : entry A j k = 1 := by
          rw [entry_symm hs (lt_trans hj hi) (lt_trans hk hi)]
          exact hek
        rw [← hag i j hi hj he, ← hag j k (lt_trans hj hi) hjk hejk]
        exact this
      · rw [if_neg hjk] at this ⊢
        rw [← hag i j hi hj he, ← hag k j (lt_trans hk hi) (by omega) hek]
        exact this
  · intro hsbt
    intro i hi he
    have hr : maxRowIndex A < nodeCount A := maxRowIndex_lt (by omega)
    have := hsb hsbt i hi he
    by_cases hri : maxRowIndex A > i
    · rw [if_pos hri] at this ⊢
      rw [← hag (maxRowIndex A) i hr hri he]
      exact this
    · rw [if_neg hri] at this ⊢
      have hir : i ≠ maxRowIndex A := by
        intro hir
        subst hir
        rw [entry_diag hs hi] at he
        exact absurd he (by simp)
      have heir : entry A i (maxRowIndex A) = 1 := by
        rw [entry_symm hs hi hr]
        exact he
      rw [← hag i (maxRowIndex A) hi (by omega) heir]
      exact this

theorem proper_congr {A : List (List Nat)} {d : Nat} {c c' : Nat → Nat → Nat}
    (hagree : ∀ p ∈ edgeList A, c p.1 p.2 = c' p.1 p.2)
    (h : Proper A d c) : Proper A d c' := by
  obtain ⟨hb, hdist⟩ := h
  constructor
  · intro p hp
    rw [← hagree p hp]
    exact hb p hp
  · intro p hp q hq hne hsh
    rw [← hagree p hp, ← hagree q hq]
    exact hdist p hp q hq hne hsh

/-! ### Soundness and completeness of the modelled oracle -/

theorem ecSolve_sound {A : List (List Nat)} {d : Nat} {sb : Bool} {cs : List Nat}
    (h : ecSolve A d sb = some cs) : ecHolds A d sb (colorFun A cs) := by
  have := List.find?_some h
  simpa using this

theorem ecSolve_complete {A : List (List Nat)} {d : Nat} {sb : Bool}
    {c : Nat → Nat → Nat} (hs : IsSimple A) (h : ecHolds A d sb c) :
    ecSolve A d sb ≠ none := by
  intro hnone
  set cs := (edgeList A).map (fun p => c p.1 p.2) with hcs
  have hmem : cs ∈ allTuples d (edgeList A).length := by
    refine mem_allTuples.mpr ⟨by simp [hcs], ?_⟩
    intro x hx
    rw [hcs] at hx
    rcases List.mem_map.mp hx with ⟨p, hp, rfl⟩
    obtain ⟨h1, h2, h3⟩ := mem_edgeList.mp hp
    exact h.1 p.1 h1 p.2 h2 h3
  have hholds : ecHolds A d sb (colorFun A cs) := by
    refine ecHolds_congr hs ?_ h
    intro p hp
    exact (colorFun_map (fun p => c p.1 p.2) hp).symm
  have hfa := List.find?_eq_none.mp hnone cs hmem
  simp only [decide_eq_true_eq] at hfa
  exact hfa hholds

theorem dsSolve_sound {A : List (List Nat)} {d : Nat} {sb : Bool} {cs : List Nat}
    (h : dsSolve A d sb = some cs) : dsHolds A d sb (dsAssign A d cs) := by
  have := List.find?_some h
  simpa using this

theorem dsSolve_complete {A : List (List Nat)} {d : Nat} {sb : Bool}
    {c : Nat → Nat → Nat} (hs : IsSimple A) (h : dsHolds A d sb c) :
    dsSolve A d sb ≠ none := by
  intro hnone
  set cs := (edgeList A).map (fun p => c p.1 p.2) with hcs
  have hproper : Proper A d c := dsHolds_proper hs h
  have hmem : cs ∈ allTuples d (edgeList A).length := by
    refine mem_allTuples.mpr ⟨by simp [hcs], ?_⟩
    intro x hx
    rw [hcs] at hx
    rcases List.mem_map.mp hx with ⟨p, hp, rfl⟩
    exact hproper.1 p hp
  have hproper' : Proper A d (colorFun A cs) := by
    refine proper_congr ?_ hproper
    intro p hp
    exact (colorFun_map (fun p => c p.1 p.2) hp).symm
  have hholds : dsHolds A d sb (dsAssign A d cs) :=
    proper_dsHolds hs hproper' sb
  have hfa := List.find?_eq_none.mp hnone cs hmem
  simp only [decide_eq_true_eq] at hfa
  exact hfa hholds

theorem ecSat_iff_solve {A : List (List Nat)} {d : Nat} {sb : Bool}
    (hs : IsSimple A) : ecSat A d sb ↔ ecSolve A d sb ≠ none := by
  constructor
  · rintro ⟨c, hc⟩
    exact ecSolve_complete hs hc
  · intro h
    cases hsol : ecSolve A d sb with
    | none => exact absurd hsol h
    | some cs => exact ⟨colorFun A cs, ecSolve_sound hsol⟩

theorem dsSat_iff_solve {A : List (List Nat)} {d : Nat} {sb : Bool}
    (hs : IsSimple A) : dsSat A d sb ↔ dsSolve A d sb ≠ none := by
  constructor
  · rintro ⟨c, hc⟩
    exact dsSolve_complete hs hc
  · intro h
    cases hsol : dsSolve A d sb with
    | none => exact absurd hsol h
    | some cs => exact ⟨dsAssign A d cs, dsSolve_sound hsol⟩

theorem ecSynthesis_ne_nil_iff {A : List (List Nat)} {d : Nat} {sb : Bool}
    (hs : IsSimple A) :
    ecSynthesis A d sb ≠ [] ↔ ecSat A d sb ∧ HasEdge A := by
  unfold ecSynthesis
  cases hsol : ecSolve A d sb with
  | none =>
      simp only [ne_eq, not_true_eq_false, false_iff]
      rintro ⟨hsat, _⟩
      exact (ecSat_iff_solve hs).mp hsat hsol
  | some cs =>
      simp only [ne_eq]
      rw [groupByColor_eq_nil_iff, ← @edgeList_ne_nil_iff A]
      constructor
      · intro h
        exact ⟨⟨colorFun A cs, ecSolve_sound hsol⟩, h⟩
      · exact And.right

theorem dsSynthesis_ne_nil_iff {A : List (List Nat)} {d : Nat} {sb : Bool}
    (hs : IsSimple A) :
    dsSynthesis A d sb ≠ [] ↔ dsSat A d sb ∧ HasEdge A := by
  unfold dsSynthesis
  cases hsol : dsSolve A d sb with
  | none =>
      simp only [ne_eq, not_true_eq_false, false_iff]
      rintro ⟨hsat, _⟩
      exact (dsSat_iff_solve hs).mp hsat hsol
  | some cs =>
      simp only [ne_eq]
      rw [groupByColor_eq_nil_iff, ← @edgeList_ne_nil_iff A]
      constructor
      · intro h
        exact ⟨⟨dsAssign A d cs, dsSolve_sound hsol⟩, h⟩
      · exact And.right

/-! ### Satisfiability transfer between the encodings -/

theorem ecSat_drop_sb {A : List (List Nat)} {d : Nat} {sb : Bool} :
    ecSat A d sb → ecSat A d false := by
  rintro ⟨c, hb, hcf, _⟩
  exact ⟨c, hb, hcf, by simp⟩

theorem dsSat_iff_proper {A : List (List Nat)} {d : Nat} {sb : Bool}
    (hs : IsSimple A) : dsSat A d sb ↔ ∃ c, Proper A d c := by
  constructor
  · rintro ⟨c, hc⟩
    exact ⟨c, dsHolds_proper hs hc⟩
  · rintro ⟨c, hc⟩
    exact ⟨dsExtend A d c, proper_dsHolds hs hc sb⟩

theorem ecSat_false_iff_proper {A : List (List Nat)} {d : Nat}
    (hs : IsSimple A) : ecSat A d false ↔ ∃ c, Proper A d c := by
  constructor
  · rintro ⟨c, hc⟩
    exact ⟨c, ecHolds_proper hs hc⟩
  · rintro ⟨c, hc⟩
    exact ⟨c, proper_ecHolds hs hc⟩

/-! ### Symmetry breaking never changes satisfiability (edge colouring):
any proper colouring can be relabelled by a colour permutation so that the
densest row's star is coloured `0, 1, 2, ...` in enumeration order -/

/-- Any two injections of `Fin m` into a finite type are conjugate by a
permutation of the codomain. -/
theorem exists_perm_comp_eq {α : Type} [Fintype α] {m : Nat} (f g : Fin m → α)
    (hf : Function.Injective f) (hg : Function.Injective g) :
    ∃ σ : Equiv.Perm α, ∀ t, σ (f t) = g t := by
  classical
  refine ⟨Equiv.extendSubtype
    ((Equiv.ofInjective f hf).symm.trans (Equiv.ofInjective g hg)), ?_⟩
  intro t
  have hmem : f t ∈ Set.range f := ⟨t, rfl⟩
  rw [Equiv.extendSubtype_apply_of_mem _ (f t) hmem]
  have h1 : (Equiv.ofInjective f hf).symm ⟨f t, hmem⟩ = t :=
    Equiv.ofInjective_symm_apply hf t
  simp [Equiv.trans_apply, h1]

/-- The canonical (larger endpoint first) form of the star edge `{r, i}`, as
both `_synthesis` loops address it. -/
def starEdge (r i : Nat) : Nat × Nat := if r > i then (r, i) else (i, r)

theorem starEdge_mem {A : List (List Nat)} (hs : IsSimple A) {r i : Nat}
    (hr : r < nodeCount A) (hi : i < nodeCount A) (he : entry A r i = 1) :
    starEdge r i ∈ edgeList A := by
  have hir : i ≠ r := by
    intro hir
    subst hir
    rw [entry_diag hs hi] at he
    exact absurd he (by simp)
  unfold starEdge
  by_cases hgt : r > i
  · rw [if_pos hgt]
    exact mem_edgeList.mpr ⟨hr, hgt, he⟩
  · rw [if_neg hgt]
    refine mem_edgeList.mpr ⟨hi, by omega, ?_⟩
    rw [entry_symm hs hi hr]
    exact he

theorem starEdge_color_lt {A : List (List Nat)} {d : Nat} {c : Nat → Nat → Nat}
    (hs : IsSimple A) (hp : Proper A d c) {r i : Nat}
    (hr : r < nodeCount A) (hi : i < nodeCount A) (he : entry A r i = 1) :
    c (starEdge r i).1 (starEdge r i).2 < d :=
  hp.1 _ (starEdge_mem hs hr hi he)

theorem starEdge_color_ne {A : List (List Nat)} {d : Nat} {c : Nat → Nat → Nat}
    (hs : IsSimple A) (hp : Proper A d c) {r i i' : Nat}
    (hr : r < nodeCount A) (hi : i < nodeCount A) (hi' : i' < nodeCount A)
    (he : entry A r i = 1) (he' : entry A r i' = 1) (hne : i ≠ i') :
    c (starEdge r i).1 (starEdge r i).2 ≠ c (starEdge r i').1 (starEdge r i').2 := by
  have hir : i ≠ r := by
    intro hir; subst hir
    rw [entry_diag hs hi] at he
    exact absurd he (by simp)
  have hir' : i' ≠ r := by
    intro hir'; subst hir'
    rw [entry_diag hs hi'] at he'
    exact absurd he' (by simp)
  have hm := starEdge_mem hs hr hi he
  have hm' := starEdge_mem hs hr hi' he'
  apply hp.2 _ hm _ hm'
  · unfold starEdge
    by_cases h1 : r > i <;> by_cases h2 : r > i' <;>
      simp [h1, h2, Prod.ext_iff] <;> omega
  · unfold starEdge
    by_cases h1 : r > i <;> by_cases h2 : r > i' <;> simp [h1, h2, ShareNode]

/-- In a filtered enumeration of `range n`, the number of earlier hits below
the `t`-th hit is exactly `t`: the symmetry breaker's running colour counter
agrees with positions in the neighbour list. -/
theorem filter_range_get_count (p : Nat → Bool) :
    ∀ (n t : Nat) (h : t < ((List.range n).filter p).length),
      ((List.range (((List.range n).filter p).get ⟨t, h⟩)).filter p).length = t := by
  intro n
  induction n with
  | zero => intro t h; simp at h
  | succ n ih =>
      intro t h
      have hsplit : (List.range (n + 1)).filter p =
          (List.range n).filter p ++ [n].filter p := by
        rw [List.range_succ, List.filter_append]
      by_cases ht : t < ((List.range n).filter p).length
      · have hget : ((List.range (n + 1)).filter p).get ⟨t, h⟩ =
            ((List.range n).filter p).get ⟨t, ht⟩ := by
          rw [List.get_of_eq hsplit ⟨t, h⟩]
          exact @List.get_append _ ((List.range n).filter p) ([n].filter p) t ht
        rw [hget]
        exact ih t ht
      · have hlen : t < ((List.range n).filter p).length + ([n].filter p).length := by
          have h2 := h
          rw [hsplit, List.length_append] at h2
          exact h2
        have hpn : p n = true := by
          by_contra hpn
          have : ([n].filter p) = [] := by
            simp [List.filter, hpn]
          rw [this] at hlen
          simp at hlen
          omega
        have hfn : [n].filter p = [n] := by simp [List.filter, hpn]
        have hteq : t = ((List.range n).filter p).length := by
          rw [hfn] at hlen
          simp at hlen
          omega
        have hsplit2 : (List.range (n + 1)).filter p =
            (List.range n).filter p ++ [n] := by rw [hsplit, hfn]
        have hget : ((List.range (n + 1)).filter p).get ⟨t, h⟩ = n := by
          subst hteq
          rw [List.get_of_eq hsplit2 ⟨_, h⟩]
          rw [List.get_append_right] <;> simp
        rw [hget, hteq]

theorem ecSat_add_sb {A : List (List Nat)} {d : Nat} (hs : IsSimple A)
    (h : ecSat A d false) : ecSat A d true := by
  obtain ⟨c, hc⟩ := h
  by_cases hn : nodeCount A = 0
  · refine ⟨c, hc.1, hc.2.1, ?_⟩
    intro _ i hi _
    omega
  have hn1 : 0 < nodeCount A := Nat.pos_of_ne_zero hn
  have hproper := ecHolds_proper hs hc
  have hr : maxRowIndex A < nodeCount A := maxRowIndex_lt hn1
  set r := maxRowIndex A with hrdef
  set S := (List.range (nodeCount A)).filter (fun k => entry A r k == 1) with hSdef
  have hSmem : ∀ {i : Nat}, i ∈ S ↔ i < nodeCount A ∧ entry A r i = 1 := by
    intro i
    simp [hSdef, List.mem_filter]
  have hSnodup : S.Nodup := List.Nodup.filter _ (List.nodup_range _)
  have hget_mem : ∀ t : Fin S.length, S.get t ∈ S := fun t => S.get_mem t.1 t.2
  have hget_facts : ∀ t : Fin S.length,
      S.get t < nodeCount A ∧ entry A r (S.get t) = 1 :=
    fun t => hSmem.mp (hget_mem t)
  set f : Fin S.length → Fin d := fun t =>
    ⟨c (starEdge r (S.get t)).1 (starEdge r (S.get t)).2,
      starEdge_color_lt hs hproper hr (hget_facts t).1 (hget_facts t).2⟩ with hfdef
  have hfinj : Function.Injective f := by
    intro t1 t2 heq
    by_contra hne
    have hgetne : S.get t1 ≠ S.get t2 := by
      intro hgeq
      exact hne (List.nodup_iff_injective_get.mp hSnodup hgeq)
    have hvals : c (starEdge r (S.get t1)).1 (starEdge r (S.get t1)).2 =
        c (starEdge r (S.get t2)).1 (starEdge r (S.get t2)).2 := by
      have := congrArg Fin.val heq
      simpa [hfdef] using this
    exact starEdge_color_ne hs hproper hr (hget_facts t1).1 (hget_facts t2).1
      (hget_facts t1).2 (hget_facts t2).2 hgetne hvals
  have hmd : S.length ≤ d := by
    have := Fintype.card_le_of_injective f hfinj
    simpa using this
  set g : Fin S.length → Fin d := fun t => ⟨t.val, lt_of_lt_of_le t.2 hmd⟩
    with hgdef
  have hginj : Function.Injective g := by
    intro t1 t2 heq
    have := congrArg Fin.val heq
    simp only [hgdef] at this
    exact Fin.ext this
  obtain ⟨σ, hσ⟩ := exists_perm_comp_eq f g hfinj hginj
  refine ⟨fun i j => if hb : c i j < d then (σ ⟨c i j, hb⟩ : Fin d).val else c i j,
    ?_, ?_, ?_⟩
  · -- bounds
    intro i hi j hj he
    show (if hb : c i j < d then (σ ⟨c i j, hb⟩ : Fin d).val else c i j) < d
    rw [dif_pos (hproper.1 (i, j) (mem_edgeList.mpr ⟨hi, hj, he⟩))]
    exact (σ _).isLt
  · -- conflict constraints: a permutation of colours preserves all inequations
    have hproper' : Proper A d
        (fun i j => if hb : c i j < d then (σ ⟨c i j, hb⟩ : Fin d).val else c i j) := by
      constructor
      · intro p hp
        show (if hb : c p.1 p.2 < d then (σ ⟨c p.1 p.2, hb⟩ : Fin d).val
          else c p.1 p.2) < d
        rw [dif_pos (hproper.1 p hp)]
        exact (σ _).isLt
      · intro p hp q hq hne hsh
        show (if hb : c p.1 p.2 < d then (σ ⟨c p.1 p.2, hb⟩ : Fin d).val
            else c p.1 p.2) ≠
          (if hb : c q.1 q.2 < d then (σ ⟨c q.1 q.2, hb⟩ : Fin d).val
            else c q.1 q.2)
        rw [dif_pos (hproper.1 p hp), dif_pos (hproper.1 q hq)]
        intro heq
        have hfineq : σ ⟨c p.1 p.2, hproper.1 p hp⟩ = σ ⟨c q.1 q.2, hproper.1 q hq⟩ :=
          Fin.ext heq
        have := σ.injective hfineq
        have hceq : c p.1 p.2 = c q.1 q.2 := congrArg Fin.val this
        exact hproper.2 p hp q hq hne hsh hceq
    exact (proper_ecHolds hs hproper').2.1
  · -- the symmetry-breaking constraints hold after relabelling
    intro _ i hi he
    have hiS : i ∈ S := hSmem.mpr ⟨hi, he⟩
    obtain ⟨t, hget⟩ := List.mem_iff_get.mp hiS
    have hlt : c (starEdge r i).1 (starEdge r i).2 < d :=
      starEdge_color_lt hs hproper hr hi he
    have hstep : (if r > i
        then if hb : c r i < d then (σ ⟨c r i, hb⟩ : Fin d).val else c r i
        else if hb : c i r < d then (σ ⟨c i r, hb⟩ : Fin d).val else c i r) =
        if hb : c (starEdge r i).1 (starEdge r i).2 < d
          then (σ ⟨c (starEdge r i).1 (starEdge r i).2, hb⟩ : Fin d).val
          else c (starEdge r i).1 (starEdge r i).2 := by
      unfold starEdge
      by_cases hgt : r > i
      · rw [if_pos hgt, if_pos hgt]
      · rw [if_neg hgt, if_neg hgt]
    rw [hstep, dif_pos hlt]
    have hft : f t = ⟨c (starEdge r i).1 (starEdge r i).2, hlt⟩ := by
      apply Fin.ext
      simp only [hfdef]
      rw [hget]
    have : σ ⟨c (starEdge r i).1 (starEdge r i).2, hlt⟩ = g t := by
      rw [← hft]
      exact hσ t
    rw [this]
    simp only [hgdef]
    have hcount : countStar A r i = t.val := by
      unfold countStar
      rw [← hget]
      exact filter_range_get_count (fun k => entry A r k == 1)
        (nodeCount A) t.val t.2
    rw [hcount]

/-- Combined with dropping constraints, the two symmetry-breaking settings of
the edge-colouring encoder are equisatisfiable at every depth. -/
theorem ecSat_sb_iff {A : List (List Nat)} {d : Nat} (hs : IsSimple A) :
    ecSat A d true ↔ ecSat A d false :=
  ⟨ecSat_drop_sb, ecSat_add_sb hs⟩

/-! ### Correctness of the two search drivers -/

theorem linearGo_spec (synth : Nat → List (Nat × List (Nat × Nat))) :
    ∀ (t0 rem d calls : Nat), t0 < rem →
      synth (d + t0) ≠ [] → (∀ t < t0, synth (d + t) = []) →
      linearGo synth d rem calls = (synth (d + t0), d + t0, calls + t0 + 1) := by
  intro t0
  induction t0 with
  | zero =>
      intro rem d calls hrem hne _
      match rem, hrem with
      | rem + 1, _ =>
          unfold linearGo
          rw [if_pos (by simpa using hne)]
          simp
  | succ t0 ih =>
      intro rem d calls hrem hne hall
      match rem, hrem with
      | rem + 1, hrem =>
          unfold linearGo
          rw [if_neg (by simpa using hall 0 (by omega))]
          have h1 := ih rem (d + 1) (calls + 1) (by omega)
            (by rw [show d + 1 + t0 = d + (t0 + 1) from by omega]; exact hne)
            (fun t ht => by
              rw [show d + 1 + t = d + (t + 1) from by omega]
              exact hall (t + 1) (by omega))
          rw [h1]
          rw [show d + 1 + t0 = d + (t0 + 1) from by omega,
            show calls + 1 + t0 + 1 = calls + (t0 + 1) + 1 from by omega]

theorem linearSearch_spec (synth : Nat → List (Nat × List (Nat × Nat)))
    (lo hi dstar : Nat) (h1 : lo ≤ dstar) (h2 : dstar ≤ hi)
    (h3 : synth dstar ≠ []) (h4 : ∀ t, lo ≤ t → t < dstar → synth t = []) :
    linearSearch synth lo hi = (synth dstar, dstar, dstar - lo + 1) := by
  unfold linearSearch
  rw [if_neg (by omega)]
  have := linearGo_spec synth (dstar - lo) (hi + 1 - lo) lo 0 (by omega)
    (by rw [show lo + (dstar - lo) = dstar from by omega]; exact h3)
    (fun t ht => h4 (lo + t) (by omega) (by omega))
  rw [show lo + (dstar - lo) = dstar from by omega] at this
  simpa using this

theorem binaryGo_spec (synth : Nat → List (Nat × List (Nat × Nat))) (dstar : Nat)
    (hmono : ∀ d1 d2, d1 ≤ d2 → synth d1 ≠ [] → synth d2 ≠ [])
    (hd : synth dstar ≠ []) (hleast : ∀ t < dstar, synth t = []) :
    ∀ (fuel l r : Nat) (cache : List Nat) (calls : Nat),
      l ≤ dstar → dstar ≤ r → r - l < fuel →
      ∃ k, binaryGo synth fuel l r cache calls = some (synth dstar, dstar, k) := by
  intro fuel
  induction fuel with
  | zero => intro l r cache calls h1 h2 h3; omega
  | succ fuel ih =>
      intro l r cache calls h1 h2 h3
      have hlr : l ≤ r := le_trans h1 h2
      have hmid1 : l ≤ (l + r) / 2 := by omega
      have hmid2 : (l + r) / 2 ≤ r := by omega
      simp only [binaryGo]
      by_cases hm : synth ((l + r) / 2) = []
      · rw [if_pos hm]
        have hmlt : (l + r) / 2 < dstar := by
          by_contra hge
          exact (hmono dstar ((l + r) / 2) (by omega) hd) hm
        exact ih ((l + r) / 2 + 1) r _ _ (by omega) h2 (by omega)
      · rw [if_neg hm]
        have hdm : dstar ≤ (l + r) / 2 := by
          by_contra hgt
          exact hm (hleast _ (by omega))
        by_cases hm2 : (l + r) / 2 ≠ l ∧ synth ((l + r) / 2 - 1) ≠ []
        · rw [if_pos hm2]
          have hdm2 : dstar ≤ (l + r) / 2 - 1 := by
            by_contra hgt
            exact hm2.2 (hleast _ (by omega))
          have hlne : l < (l + r) / 2 := by
            rcases Nat.lt_or_ge l ((l + r) / 2) with h | h
            · exact h
            · exact absurd (by omega) hm2.1
          exact ih l ((l + r) / 2 - 1) _ _ h1 hdm2 (by omega)
        · rw [if_neg hm2]
          have heq : (l + r) / 2 = dstar := by
            rcases Decidable.not_and_iff_or_not.mp hm2 with h | h
            · have : (l + r) / 2 = l := by
                by_contra hne
                exact h hne
              omega
            · have hempty : synth ((l + r) / 2 - 1) = [] := by
                by_contra hne
                exact h hne
              have : ¬ dstar ≤ (l + r) / 2 - 1 := by
                intro hle
                exact hmono dstar ((l + r) / 2 - 1) hle hd hempty
              -- dstar > mid - 1 and dstar ≤ mid; if mid = 0 then
              -- synth mid = synth (mid - 1) = [] contradicts hm
              by_cases hz : (l + r) / 2 = 0
              · exfalso
                exact hm (by rw [hz]; rw [hz] at hempty; simpa using hempty)
              · omega
          rw [heq]
          exact ⟨_, rfl⟩

theorem binarySearch_spec (synth : Nat → List (Nat × List (Nat × Nat)))
    (lo hi dstar : Nat)
    (hmono : ∀ d1 d2, d1 ≤ d2 → synth d1 ≠ [] → synth d2 ≠ [])
    (hd : synth dstar ≠ []) (hleast : ∀ t < dstar, synth t = [])
    (h1 : lo ≤ dstar) (h2 : dstar ≤ hi) :
    ∃ k, binarySearch synth lo hi = some (synth dstar, dstar, k) := by
  unfold binarySearch
  exact binaryGo_spec synth dstar hmono hd hleast (hi + 2) lo hi [] 0 h1 h2
    (by omega)

/-! ### The search interval: lower bound below the optimum, upper bound
satisfiable -/

theorem foldl_max_le {f : Nat → Int} {K : Int} :
    ∀ (l : List Nat) (init : Int), init ≤ K → (∀ i ∈ l, f i ≤ K) →
      l.foldl (fun acc i => max acc (f i)) init ≤ K
  | [], _, hinit, _ => hinit
  | i :: tl, init, hinit, hall => by
      simp only [List.foldl_cons]
      exact foldl_max_le tl _ (max_le hinit (hall i (by simp)))
        (fun j hj => hall j (by simp [hj]))

theorem length_filter_range (p : Nat → Prop) [DecidablePred p] (m : Nat) :
    ((List.range m).filter fun j => decide (p j)).length =
      ((Finset.range m).filter p).card := by
  induction m with
  | zero => simp
  | succ m ih =>
      rw [List.range_succ, List.filter_append, Finset.range_succ,
        Finset.filter_insert]
      by_cases h : p m
      · rw [if_pos h, Finset.card_insert_of_not_mem (by simp)]
        simp [h, ih]
      · rw [if_neg h]
        simp [h, ih]

theorem max_outgoing_le_maxDegree {A : List (List Nat)} (hs : IsSimple A) :
    (max_outgoing_connections A).toNat ≤ maxDegree A := by
  rw [Int.toNat_le]
  unfold max_outgoing_connections
  apply foldl_max_le _ _ (by omega)
  intro i hi
  have hi' : i < nodeCount A := List.mem_range.mp hi
  have hpred : ∀ a ∈ List.range (i + 1),
      (entry A i a == 1) = decide (entry A i a = 1) := by
    intro a _
    by_cases h : entry A i a = 1 <;> simp [h]
  have h1 : ((List.range (i + 1)).filter fun j => entry A i j == 1).length =
      ((Finset.range (i + 1)).filter fun j => entry A i j = 1).card := by
    rw [List.filter_congr hpred]
    exact length_filter_range (fun j => entry A i j = 1) (i + 1)
  have h2 : ((Finset.range (i + 1)).filter fun j => entry A i j = 1).card ≤
      degree A i := by
    apply Finset.card_le_card
    apply Finset.filter_subset_filter
    exact Finset.range_subset.mpr hi'
  have h3 : degree A i ≤ maxDegree A :=
    Finset.le_sup (Finset.mem_range.mpr hi')
  have := le_trans (le_trans (le_of_eq h1) h2) h3
  exact_mod_cast this

theorem ecSat_nodeCount {A : List (List Nat)} (hs : IsSimple A) (sb : Bool) :
    ecSat A (nodeCount A) sb := by
  have h : ecSat A (nodeCount A) false :=
    (ecSat_false_iff_proper hs).mpr ⟨_, exists_proper_nodeCount A⟩
  cases sb
  · exact h
  · exact ecSat_add_sb hs h

theorem dsSat_nodeCount {A : List (List Nat)} (hs : IsSimple A) (sb : Bool) :
    dsSat A (nodeCount A) sb :=
  (dsSat_iff_proper hs).mpr ⟨_, exists_proper_nodeCount A⟩

theorem ecSynthesis_mono {A : List (List Nat)} {sb : Bool} (hs : IsSimple A) :
    ∀ d1 d2, d1 ≤ d2 → ecSynthesis A d1 sb ≠ [] → ecSynthesis A d2 sb ≠ [] := by
  intro d1 d2 hle h
  have h1 := (ecSynthesis_ne_nil_iff hs).mp h
  refine (ecSynthesis_ne_nil_iff hs).mpr ⟨?_, h1.2⟩
  obtain ⟨c, hc⟩ := h1.1
  exact ⟨c, ecHolds_mono hc hle⟩

theorem dsSynthesis_mono {A : List (List Nat)} {sb : Bool} (hs : IsSimple A) :
    ∀ d1 d2, d1 ≤ d2 → dsSynthesis A d1 sb ≠ [] → dsSynthesis A d2 sb ≠ [] := by
  intro d1 d2 hle h
  have h1 := (dsSynthesis_ne_nil_iff hs).mp h
  refine (dsSynthesis_ne_nil_iff hs).mpr ⟨?_, h1.2⟩
  obtain ⟨c, hc⟩ := h1.1
  exact ⟨c, dsHolds_mono hc hle⟩

theorem ecSynthesis_nodeCount_ne_nil {A : List (List Nat)} (hs : IsSimple A)
    (hedge : HasEdge A) (sb : Bool) : ecSynthesis A (nodeCount A) sb ≠ [] :=
  (ecSynthesis_ne_nil_iff hs).mpr ⟨ecSat_nodeCount hs sb, hedge⟩

theorem dsSynthesis_nodeCount_ne_nil {A : List (List Nat)} (hs : IsSimple A)
    (hedge : HasEdge A) (sb : Bool) : dsSynthesis A (nodeCount A) sb ≠ [] :=
  (dsSynthesis_ne_nil_iff hs).mpr ⟨dsSat_nodeCount hs sb, hedge⟩

/-! ### End-to-end behaviour of the two searches, per strategy -/

theorem ec_search_spec {A : List (List Nat)} (hs : IsSimple A)
    (hedge : HasEdge A) (sb : Bool) :
    ∃ dstar k2,
      ecSynthesis A dstar sb ≠ [] ∧ (∀ t < dstar, ecSynthesis A t sb = []) ∧
      dstar ≤ nodeCount A ∧ (max_outgoing_connections A).toNat ≤ dstar ∧
      EC.linear_search A sb =
        (map_mapping_to_qcircuit (ecSynthesis A dstar sb) A, dstar,
          dstar - (max_outgoing_connections A).toNat + 1) ∧
      EC.binary_search A sb =
        some (map_mapping_to_qcircuit (ecSynthesis A dstar sb) A, dstar, k2) := by
  have hex : ∃ d, ecSynthesis A d sb ≠ [] :=
    ⟨nodeCount A, ecSynthesis_nodeCount_ne_nil hs hedge sb⟩
  set dstar := Nat.find hex with hdstar
  have hfind : ecSynthesis A dstar sb ≠ [] := Nat.find_spec hex
  have hleast : ∀ t < dstar, ecSynthesis A t sb = [] := by
    intro t ht
    by_contra hne
    exact Nat.find_min hex ht hne
  have hub : dstar ≤ nodeCount A :=
    Nat.find_le (ecSynthesis_nodeCount_ne_nil hs hedge sb)
  have hlb : (max_outgoing_connections A).toNat ≤ dstar := by
    have hsat : ecSat A dstar sb := ((ecSynthesis_ne_nil_iff hs).mp hfind).1
    have hproper : ∃ c, Proper A dstar c :=
      (ecSat_false_iff_proper hs).mp (ecSat_drop_sb hsat)
    obtain ⟨c, hc⟩ := hproper
    exact le_trans (max_outgoing_le_maxDegree hs) (proper_maxDegree_le hs hc)
  have hlin := linearSearch_spec (fun d => ecSynthesis A d sb)
    (max_outgoing_connections A).toNat (nodeCount A) dstar hlb hub hfind
    (fun t _ ht2 => hleast t ht2)
  obtain ⟨k2, hbin⟩ := binarySearch_spec (fun d => ecSynthesis A d sb)
    (max_outgoing_connections A).toNat (nodeCount A) dstar
    (ecSynthesis_mono hs) hfind hleast hlb hub
  refine ⟨dstar, k2, hfind, hleast, hub, hlb, ?_, ?_⟩
  · unfold EC.linear_search
    rw [hlin]
  · unfold EC.binary_search
    rw [hbin]

theorem ds_search_spec {A : List (List Nat)} (hs : IsSimple A)
    (hedge : HasEdge A) (sb : Bool) :
    ∃ dstar k2,
      dsSynthesis A dstar sb ≠ [] ∧ (∀ t < dstar, dsSynthesis A t sb = []) ∧
      dstar ≤ nodeCount A ∧
      DS.linear_search A sb =
        (map_mapping_to_qcircuit (dsSynthesis A dstar sb) A, dstar, dstar + 1) ∧
      DS.binary_search A sb =
        some (map_mapping_to_qcircuit (dsSynthesis A dstar sb) A, dstar, k2) := by
  have hex : ∃ d, dsSynthesis A d sb ≠ [] :=
    ⟨nodeCount A, dsSynthesis_nodeCount_ne_nil hs hedge sb⟩
  set dstar := Nat.find hex with hdstar
  have hfind : dsSynthesis A dstar sb ≠ [] := Nat.find_spec hex
  have hleast : ∀ t < dstar, dsSynthesis A t sb = [] := by
    intro t ht
    by_contra hne
    exact Nat.find_min hex ht hne
  have hub : dstar ≤ nodeCount A :=
    Nat.find_le (dsSynthesis_nodeCount_ne_nil hs hedge sb)
  have hlin := linearSearch_spec (fun d => dsSynthesis A d sb)
    0 (nodeCount A) dstar (Nat.zero_le _) hub hfind
    (fun t _ ht2 => hleast t ht2)
  obtain ⟨k2, hbin⟩ := binarySearch_spec (fun d => dsSynthesis A d sb)
    0 (nodeCount A) dstar (dsSynthesis_mono hs) hfind hleast (Nat.zero_le _) hub
  refine ⟨dstar, k2, hfind, hleast, hub, ?_, ?_⟩
  · unfold DS.linear_search
    rw [hlin]
    simp
  · unfold DS.binary_search
    rw [hbin]

/-! ### The name/matrix round trip (`extract_adjacency_matrix`) -/

theorem digitRunsGo_nondigit {ch : Char} (h : ch.isDigit = false)
    (rest : List Char) :
    digitRunsGo (ch :: rest) none = digitRunsGo rest none := by
  simp [digitRunsGo, h]

theorem digitRunsGo_nondigit_some {ch : Char} (h : ch.isDigit = false)
    (v : Nat) (rest : List Char) :
    digitRunsGo (ch :: rest) (some v) = v :: digitRunsGo rest none := by
  simp [digitRunsGo, h]

theorem digitRunsGo_digit {ch : Char} (h : ch.isDigit = true)
    (acc : Option Nat) (rest : List Char) :
    digitRunsGo (ch :: rest) acc =
      digitRunsGo rest (some (acc.getD 0 * 10 + (ch.toNat - 48))) := by
  cases acc <;> simp [digitRunsGo, h]

theorem digitRunsGo_nondigit_prefix :
    ∀ (s : List Char), (∀ ch ∈ s, ch.isDigit = false) → ∀ (rest : List Char),
      digitRunsGo (s ++ rest) none = digitRunsGo rest none
  | [], _, rest => rfl
  | ch :: s, h, rest => by
      rw [List.cons_append, digitRunsGo_nondigit (h ch (by simp)),
        digitRunsGo_nondigit_prefix s (fun c hc => h c (by simp [hc])) rest]

theorem digitRuns_commaSep_row :
    ∀ (row : List Nat), (∀ x ∈ row, x ≤ 1) →
      ∀ (ch : Char), ch.isDigit = false → ∀ (rest : List Char),
      digitRunsGo ((commaSep (row.map toString)).data ++ ch :: rest) none =
        row ++ digitRunsGo (ch :: rest) none
  | [], _, ch, hch, rest => by
      simp [commaSep]
  | [x], h01, ch, hch, rest => by
      have hx : x = 0 ∨ x = 1 := by
        have := h01 x (by simp)
        omega
      have hone : commaSep ([x].map toString) = toString x := by
        simp [commaSep]
      rw [hone]
      rcases hx with rfl | rfl
      · rw [show (toString (0 : Nat)).data = ['0'] from by decide]
        rw [List.cons_append, List.nil_append,
          digitRunsGo_digit (by decide) none (ch :: rest)]
        rw [show (Option.getD (none : Option Nat) 0) * 10 + ('0'.toNat - 48) = 0
          from by decide]
        rw [digitRunsGo_nondigit_some hch, digitRunsGo_nondigit hch]
        rfl
      · rw [show (toString (1 : Nat)).data = ['1'] from by decide]
        rw [List.cons_append, List.nil_append,
          digitRunsGo_digit (by decide) none (ch :: rest)]
        rw [show (Option.getD (none : Option Nat) 0) * 10 + ('1'.toNat - 48) = 1
          from by decide]
        rw [digitRunsGo_nondigit_some hch, digitRunsGo_nondigit hch]
        rfl
  | x :: y :: tl, h01, ch, hch, rest => by
      have hx : x = 0 ∨ x = 1 := by
        have := h01 x (by simp)
        omega
      have hsplit : commaSep ((x :: y :: tl).map toString) =
          toString x ++ ", " ++ commaSep ((y :: tl).map toString) := by
        simp [commaSep]
      rw [hsplit]
      have hdata : (toString x ++ ", " ++ commaSep ((y :: tl).map toString)).data
          ++ ch :: rest = (toString x).data ++ (',' :: ' ' ::
            ((commaSep ((y :: tl).map toString)).data ++ ch :: rest)) := by
        rw [String.data_append, String.data_append]
        rw [show (", ").data = [',', ' '] from by decide]
        simp
      rw [hdata]
      have hrec := digitRuns_commaSep_row (y :: tl)
        (fun z hz => h01 z (by simp [hz])) ch hch rest
      rcases hx with rfl | rfl
      · rw [show (toString (0 : Nat)).data = ['0'] from by decide]
        rw [List.cons_append, List.nil_append,
          digitRunsGo_digit (by decide) none _]
        rw [show (Option.getD (none : Option Nat) 0) * 10 + ('0'.toNat - 48) = 0
          from by decide]
        rw [digitRunsGo_nondigit_some (by decide),
          digitRunsGo_nondigit (by decide), hrec]
        rfl
      · rw [show (toString (1 : Nat)).data = ['1'] from by decide]
        rw [List.cons_append, List.nil_append,
          digitRunsGo_digit (by decide) none _]
        rw [show (Option.getD (none : Option Nat) 0) * 10 + ('1'.toNat - 48) = 1
          from by decide]
        rw [digitRunsGo_nondigit_some (by decide),
          digitRunsGo_nondigit (by decide), hrec]
        rfl

theorem digitRuns_renderRow (row : List Nat) (h01 : ∀ x ∈ row, x ≤ 1)
    (rest : List Char) :
    digitRunsGo ((pyRenderRow row).data ++ rest) none =
      row ++ digitRunsGo rest none := by
  unfold pyRenderRow
  have hdata : ("[" ++ commaSep (row.map toString) ++ "]").data ++ rest =
      '[' :: ((commaSep (row.map toString)).data ++ ']' :: rest) := by
    rw [String.data_append, String.data_append]
    rw [show ("[").data = ['['] from by decide,
      show ("]").data = [']'] from by decide]
    simp
  rw [hdata, digitRunsGo_nondigit (by decide),
    digitRuns_commaSep_row row h01 ']' (by decide) rest,
    digitRunsGo_nondigit (by decide)]

theorem digitRuns_commaSep_matrix :
    ∀ (M : List (List Nat)), (∀ row ∈ M, ∀ x ∈ row, x ≤ 1) →
      ∀ (ch : Char), ch.isDigit = false → ∀ (rest : List Char),
      digitRunsGo ((commaSep (M.map pyRenderRow)).data ++ ch :: rest) none =
        M.flatten ++ digitRunsGo (ch :: rest) none
  | [], _, ch, hch, rest => by
      simp [commaSep]
  | [row], h01, ch, hch, rest => by
      have hone : commaSep ([row].map pyRenderRow) = pyRenderRow row := by
        simp [commaSep]
      rw [hone, digitRuns_renderRow row (h01 row (by simp)) (ch :: rest)]
      simp
  | row :: r2 :: tl, h01, ch, hch, rest => by
      have hsplit : commaSep ((row :: r2 :: tl).map pyRenderRow) =
          pyRenderRow row ++ ", " ++ commaSep ((r2 :: tl).map pyRenderRow) := by
        simp [commaSep]
      rw [hsplit]
      have hdata : (pyRenderRow row ++ ", " ++
          commaSep ((r2 :: tl).map pyRenderRow)).data ++ ch :: rest =
          (pyRenderRow row).data ++ (',' :: ' ' ::
            ((commaSep ((r2 :: tl).map pyRenderRow)).data ++ ch :: rest)) := by
        rw [String.data_append, String.data_append]
        rw [show (", ").data = [',', ' '] from by decide]
        simp
      rw [hdata, digitRuns_renderRow row (h01 row (by simp)) _,
        digitRunsGo_nondigit (by decide), digitRunsGo_nondigit (by decide),
        digitRuns_commaSep_matrix (r2 :: tl)
          (fun r hr z hz => h01 r (by simp [hr]) z hz) ch hch rest]
      simp

theorem digitRuns_name (M : List (List Nat))
    (h01 : ∀ row ∈ M, ∀ x ∈ row, x ≤ 1) :
    digitRuns ("Depth optimal circuit of Graphstate g: " ++ pyRenderMatrix M) =
      M.flatten := by
  unfold digitRuns pyRenderMatrix
  have hdata : ("Depth optimal circuit of Graphstate g: " ++
      ("[" ++ commaSep (M.map pyRenderRow) ++ "]")).data =
      ("Depth optimal circuit of Graphstate g: ").data ++
        ('[' :: ((commaSep (M.map pyRenderRow)).data ++ [']'])) := by
    rw [String.data_append, String.data_append, String.data_append]
    rw [show ("[").data = ['['] from by decide,
      show ("]").data = [']'] from by decide]
    simp
  rw [hdata, digitRunsGo_nondigit_prefix _ (by decide),
    digitRunsGo_nondigit (by decide),
    digitRuns_commaSep_matrix M h01 ']' (by decide) [],
    show digitRunsGo [']'] none = [] from by decide]
  simp

theorem flatten_length {n : Nat} :
    ∀ (M : List (List Nat)), (∀ r ∈ M, r.length = n) →
      M.flatten.length = M.length * n
  | [], _ => by simp
  | row :: tl, h => by
      simp only [List.flatten_cons, List.length_append, List.length_cons]
      rw [flatten_length tl (fun r hr => h r (by simp [hr])), h row (by simp)]
      ring

theorem flatten_reshape {n : Nat} :
    ∀ (M : List (List Nat)), (∀ r ∈ M, r.length = n) →
      (List.range M.length).map (fun i => (M.flatten.drop (i * n)).take n) = M
  | [], _ => by simp
  | row :: tl, h => by
      rw [List.length_cons, List.range_succ_eq_map, List.map_cons]
      have hrow : ((row :: tl).flatten.drop (0 * n)).take n = row := by
        simp only [Nat.zero_mul, List.drop_zero, List.flatten_cons]
        rw [← h row (by simp)]
        exact List.take_left row tl.flatten
      rw [hrow, List.map_map]
      have hstep : ∀ i ∈ List.range tl.length,
          ((fun i => ((row :: tl).flatten.drop (i * n)).take n) ∘ Nat.succ) i =
            (fun i => (tl.flatten.drop (i * n)).take n) i := by
        intro i _
        simp only [Function.comp_apply, List.flatten_cons]
        have : Nat.succ i * n = row.length + i * n := by
          rw [h row (by simp), Nat.succ_eq_add_one]
          ring
        rw [this, List.drop_append]
      rw [List.map_congr_left hstep,
        flatten_reshape tl (fun r hr => h r (by simp [hr]))]

theorem isqrt_sq (m : Nat) : isqrt (m * m) = m := by
  unfold isqrt
  have hcong : ∀ k ∈ List.range (m * m),
      (decide ((k + 1) * (k + 1) ≤ m * m)) = decide (k < m) := by
    intro k _
    have hiff : (k + 1) * (k + 1) ≤ m * m ↔ k < m := by
      constructor
      · intro h
        by_contra hk
        have hmk : m < k + 1 := by omega
        have := Nat.mul_self_lt_mul_self hmk
        omega
      · intro h
        have hk1 : k + 1 ≤ m := h
        exact Nat.mul_le_mul hk1 hk1
    by_cases h : k < m
    · simp [h, hiff.mpr h]
    · have : ¬ (k + 1) * (k + 1) ≤ m * m := fun hc => h (hiff.mp hc)
      simp [h, this]
  rw [List.filter_congr hcong,
    length_filter_range (fun k => k < m) (m * m)]
  have hsub : m ≤ m * m := by nlinarith
  have hext : (Finset.range (m * m)).filter (fun k => k < m) = Finset.range m := by
    ext k
    simp only [Finset.mem_filter, Finset.mem_range]
    omega
  rw [hext, Finset.card_range]

theorem extract_roundtrip {A : List (List Nat)}
    (hsq : ∀ r ∈ A, r.length = A.length)
    (h01 : ∀ r ∈ A, ∀ x ∈ r, x ≤ 1) :
    extract_adjacency_matrix
      ("Depth optimal circuit of Graphstate g: " ++ pyRenderMatrix A) = A := by
  unfold extract_adjacency_matrix
  rw [digitRuns_name A h01]
  show (List.range (isqrt A.flatten.length)).map
    (fun i => (A.flatten.drop (i * isqrt A.flatten.length)).take
      (isqrt A.flatten.length)) = A
  rw [flatten_length A hsq, isqrt_sq]
  exact flatten_reshape A hsq

/-! ### The returned mapping is a partition of the edge set into matchings -/

theorem edgeList_nodup (A : List (List Nat)) : (edgeList A).Nodup := by
  unfold edgeList
  rw [List.nodup_flatMap]
  constructor
  · intro i _
    apply List.Nodup.map
    · intro a b hab
      injection hab
    · exact List.Nodup.filter _ (List.nodup_range _)
  · refine List.Pairwise.imp ?_ (List.pairwise_lt_range _)
    intro a b hab x hxa hxb
    rcases List.mem_map.mp hxa with ⟨j, _, rfl⟩
    rcases List.mem_map.mp hxb with ⟨j', _, heq⟩
    injection heq with h1 _
    omega

theorem ecSynthesis_partition {A : List (List Nat)} {d : Nat} {sb : Bool}
    (hs : IsSimple A) (hne : ecSynthesis A d sb ≠ []) :
    List.Perm ((ecSynthesis A d sb).flatMap Prod.snd) (edgeList A) ∧
    ∀ layer ∈ ecSynthesis A d sb, ∀ e1 ∈ layer.2, ∀ e2 ∈ layer.2,
      e1 ≠ e2 → ¬ ShareNode e1 e2 := by
  unfold ecSynthesis at hne ⊢
  cases hsol : ecSolve A d sb with
  | none => rw [hsol] at hne; simp at hne
  | some cs =>
      have hproper : Proper A d (colorFun A cs) :=
        ecHolds_proper hs (ecSolve_sound hsol)
      refine ⟨groupByColor_flatMap_perm _ _, ?_⟩
      rintro ⟨k, l⟩ hmem e1 he1 e2 he2 hne12 hsh
      obtain ⟨hm1, hc1⟩ := groupByColor_mem hmem he1
      obtain ⟨hm2, hc2⟩ := groupByColor_mem hmem he2
      exact hproper.2 e1 hm1 e2 hm2 hne12 hsh (by rw [hc1, hc2])

theorem dsSynthesis_partition {A : List (List Nat)} {d : Nat} {sb : Bool}
    (hs : IsSimple A) (hne : dsSynthesis A d sb ≠ []) :
    List.Perm ((dsSynthesis A d sb).flatMap Prod.snd) (edgeList A) ∧
    ∀ layer ∈ dsSynthesis A d sb, ∀ e1 ∈ layer.2, ∀ e2 ∈ layer.2,
      e1 ≠ e2 → ¬ ShareNode e1 e2 := by
  unfold dsSynthesis at hne ⊢
  cases hsol : dsSolve A d sb with
  | none => rw [hsol] at hne; simp at hne
  | some cs =>
      have hproper0 : Proper A d (dsAssign A d cs) :=
        dsHolds_proper hs (dsSolve_sound hsol)
      have hproper : Proper A d (colorFun A cs) := by
        refine proper_congr ?_ hproper0
        rintro ⟨i, j⟩ hp
        obtain ⟨_, _, he⟩ := mem_edgeList.mp hp
        simp only [dsAssign]
        rw [if_pos he]
      refine ⟨groupByColor_flatMap_perm _ _, ?_⟩
      rintro ⟨k, l⟩ hmem e1 he1 e2 he2 hne12 hsh
      obtain ⟨hm1, hc1⟩ := groupByColor_mem hmem he1
      obtain ⟨hm2, hc2⟩ := groupByColor_mem hmem he2
      exact hproper.2 e1 hm1 e2 hm2 hne12 hsh (by rw [hc1, hc2])

/-! ### The all-zero short-circuit and full synthesize runs -/

theorem not_allZero {A : List (List Nat)} (hs : IsSimple A) (hedge : HasEdge A) :
    (A.all fun row => row.all fun cell => cell == 0) = false := by
  obtain ⟨i, hi, j, hj, he⟩ := hedge
  apply Bool.eq_false_iff.mpr
  intro hall
  have hrowmem : A.getD i [] ∈ A := by
    rw [List.getD_eq_getElem _ _ hi]
    exact List.getElem_mem hi
  have hrow := List.all_eq_true.mp hall _ hrowmem
  have hjlen : j < (A.getD i []).length := by
    rw [hs.1 i hi]
    omega
  have hcellmem : (A.getD i []).getD j 0 ∈ A.getD i [] := by
    rw [List.getD_eq_getElem _ _ hjlen]
    exact List.getElem_mem hjlen
  have := List.all_eq_true.mp hrow _ hcellmem
  rw [show (A.getD i []).getD j 0 = entry A i j from rfl, he] at this
  simp at this

theorem ec_synthesize_spec {A : List (List Nat)} (hs : IsSimple A)
    (hedge : HasEdge A) (elapsed : Nat) (circuit : QCircuit) (sb lin : Bool)
    (hname : extract_adjacency_matrix circuit.name = A) :
    ∃ dstar calls,
      EC.synthesize elapsed circuit sb lin =
        some (map_mapping_to_qcircuit (ecSynthesis A dstar sb) A,
          mkResults (map_mapping_to_qcircuit (ecSynthesis A dstar sb) A)
            dstar elapsed calls) ∧
      ecSynthesis A dstar sb ≠ [] ∧ (∀ t < dstar, ecSynthesis A t sb = []) ∧
      dstar ≤ nodeCount A := by
  obtain ⟨dstar, k2, hfind, hleast, hub, hlb, hlin, hbin⟩ := ec_search_spec hs hedge sb
  unfold EC.synthesize
  rw [hname]
  dsimp only
  rw [not_allZero hs hedge]
  cases lin with
  | true =>
      refine ⟨dstar, dstar - (max_outgoing_connections A).toNat + 1,
        ?_, hfind, hleast, hub⟩
      rw [if_neg (by simp), if_pos rfl, hlin]
  | false =>
      refine ⟨dstar, k2, ?_, hfind, hleast, hub⟩
      rw [if_neg (by simp), if_neg (by simp), hbin]

theorem ds_synthesize_spec {A : List (List Nat)} (hs : IsSimple A)
    (hedge : HasEdge A) (elapsed : Nat) (circuit : QCircuit) (sb lin : Bool)
    (hname : extract_adjacency_matrix circuit.name = A) :
    ∃ dstar calls,
      DS.synthesize elapsed circuit sb lin =
        some (map_mapping_to_qcircuit (dsSynthesis A dstar sb) A,
          mkResults (map_mapping_to_qcircuit (dsSynthesis A dstar sb) A)
            dstar elapsed calls) ∧
      dsSynthesis A dstar sb ≠ [] ∧ (∀ t < dstar, dsSynthesis A t sb = []) ∧
      dstar ≤ nodeCount A := by
  obtain ⟨dstar, k2, hfind, hleast, hub, hlin, hbin⟩ := ds_search_spec hs hedge sb
  unfold DS.synthesize
  rw [hname]
  dsimp only
  rw [not_allZero hs hedge]
  cases lin with
  | true =>
      refine ⟨dstar, dstar + 1, ?_, hfind, hleast, hub⟩
      rw [if_neg (by simp), if_pos rfl, hlin]
  | false =>
      refine ⟨dstar, k2, ?_, hfind, hleast, hub⟩
      rw [if_neg (by simp), if_neg (by simp), hbin]

/-! ### Claim statements -/

/-- Spec-side rendering of section 4.5's wording: the materializer with the
layers taken in increasing layer-index order. -/
def materializeSorted (mapping : List (Nat × List (Nat × Nat)))
    (A : List (List Nat)) : QCircuit :=
  map_mapping_to_qcircuit
    (List.insertionSort (fun a b => a.1 ≤ b.1) mapping) A

/-- C1's property for a fixed graph: every successful encoder mapping is an
exact partition of the (duplicate-free) edge list into node-disjoint layers,
and the depth reported by either synthesize entry point is at least the
maximum degree. -/
def C1Statement (A : List (List Nat)) : Prop :=
  (∀ d sb, ecSynthesis A d sb ≠ [] →
    List.Perm ((ecSynthesis A d sb).flatMap Prod.snd) (edgeList A) ∧
    (∀ layer ∈ ecSynthesis A d sb, ∀ e1 ∈ layer.2, ∀ e2 ∈ layer.2,
      e1 ≠ e2 → ¬ ShareNode e1 e2)) ∧
  (∀ d sb, dsSynthesis A d sb ≠ [] →
    List.Perm ((dsSynthesis A d sb).flatMap Prod.snd) (edgeList A) ∧
    (∀ layer ∈ dsSynthesis A d sb, ∀ e1 ∈ layer.2, ∀ e2 ∈ layer.2,
      e1 ≠ e2 → ¬ ShareNode e1 e2)) ∧
  (edgeList A).Nodup ∧
  (∀ elapsed circuit sb lin qc res,
    extract_adjacency_matrix (QCircuit.name circuit) = A →
    EC.synthesize elapsed circuit sb lin = some (qc, res) →
    maxDegree A ≤ res.depth) ∧
  (∀ elapsed circuit sb lin qc res,
    extract_adjacency_matrix (QCircuit.name circuit) = A →
    DS.synthesize elapsed circuit sb lin = some (qc, res) →
    maxDegree A ≤ res.depth)

/-- C2's property: non-empty encoder results are monotone in the depth. -/
def C2Statement (A : List (List Nat)) (d1 d2 : Nat) : Prop :=
  ∀ sb, (ecSynthesis A d1 sb ≠ [] → ecSynthesis A d2 sb ≠ []) ∧
    (dsSynthesis A d1 sb ≠ [] → dsSynthesis A d2 sb ≠ [])

/-- C3's property: binary and linear search agree on the returned depth, for
both encoding strategies. -/
def C3Statement (A : List (List Nat)) (sb : Bool) : Prop :=
  (EC.binary_search A sb).map (fun x => x.2.1) =
    some (EC.linear_search A sb).2.1 ∧
  (DS.binary_search A sb).map (fun x => x.2.1) =
    some (DS.linear_search A sb).2.1

/-- C4's property: the symmetry-breaking flag never changes satisfiability,
for either encoding, at any depth. -/
def C4Statement (A : List (List Nat)) (d : Nat) : Prop :=
  (ecSat A d true ↔ ecSat A d false) ∧
  (dsSat A d true ↔ dsSat A d false) ∧
  (ecSynthesis A d true ≠ [] ↔ ecSynthesis A d false ≠ []) ∧
  (dsSynthesis A d true ≠ [] ↔ dsSynthesis A d false ≠ [])

/-- C5's property: depth = node count is always satisfiable, so both search
drivers terminate (binary search within its fuel) at a depth within the
bound, with a non-empty mapping. -/
def C5Statement (A : List (List Nat)) (sb : Bool) : Prop :=
  ecSat A (nodeCount A) sb ∧ dsSat A (nodeCount A) sb ∧
  ecSynthesis A (nodeCount A) sb ≠ [] ∧
  dsSynthesis A (nodeCount A) sb ≠ [] ∧
  (∃ qc d k, EC.linear_search A sb = (qc, d, k) ∧ d ≤ nodeCount A ∧
    ecSynthesis A d sb ≠ []) ∧
  (∃ qc d k, EC.binary_search A sb = some (qc, d, k) ∧ d ≤ nodeCount A ∧
    ecSynthesis A d sb ≠ []) ∧
  (∃ qc d k, DS.linear_search A sb = (qc, d, k) ∧ d ≤ nodeCount A ∧
    dsSynthesis A d sb ≠ []) ∧
  (∃ qc d k, DS.binary_search A sb = some (qc, d, k) ∧ d ≤ nodeCount A ∧
    dsSynthesis A d sb ≠ [])

/-- C6's property as amended: linear search's first probed depth is the
code's `_max_outgoing_connections` bound (not the maximum degree) for the
edge-colouring strategy and `0` for the direct-scheduling strategy, with
exactly one solver call per probed depth up to the first non-empty mapping. -/
def C6Statement (A : List (List Nat)) (sb : Bool) : Prop :=
  (∃ dstar, ecSynthesis A dstar sb ≠ [] ∧
    (∀ t < dstar, ecSynthesis A t sb = []) ∧
    (max_outgoing_connections A).toNat ≤ dstar ∧
    EC.linear_search A sb =
      (map_mapping_to_qcircuit (ecSynthesis A dstar sb) A, dstar,
        dstar - (max_outgoing_connections A).toNat + 1)) ∧
  (∃ dstar, dsSynthesis A dstar sb ≠ [] ∧
    (∀ t < dstar, dsSynthesis A t sb = []) ∧
    DS.linear_search A sb =
      (map_mapping_to_qcircuit (dsSynthesis A dstar sb) A, dstar, dstar + 1))

/-- C7's property as amended: the materializer emits the Hadamard layer on
all nodes first, then the CZ layers in the mapping's own stored order (which
coincides with increasing layer-index order exactly when the stored keys are
sorted); an empty mapping yields only the Hadamard layer. -/
def C7Statement (mapping : List (Nat × List (Nat × Nat)))
    (A : List (List Nat)) : Prop :=
  (map_mapping_to_qcircuit mapping A).gates =
    ((List.range (nodeCount A)).map Gate.h) ++
      mapping.flatMap (fun layer => layer.2.map fun e => Gate.cz e.1 e.2) ∧
  (mapping = [] → (map_mapping_to_qcircuit mapping A).gates =
    (List.range (nodeCount A)).map Gate.h) ∧
  (List.Sorted (fun a b : Nat × List (Nat × Nat) => a.1 ≤ b.1) mapping →
    map_mapping_to_qcircuit mapping A = materializeSorted mapping A)

/-- C8's property: the all-zero short-circuit returns the input circuit
unchanged with depth, runtime and solver calls all zero and the counts taken
from the input circuit. -/
def C8Statement (elapsed : Nat) (circuit : QCircuit) (sb lin : Bool) : Prop :=
  EC.synthesize elapsed circuit sb lin = some (circuit, mkResults circuit 0 0 0) ∧
  DS.synthesize elapsed circuit sb lin = some (circuit, mkResults circuit 0 0 0) ∧
  (mkResults circuit 0 0 0).depth = 0 ∧
  (mkResults circuit 0 0 0).solver_calls = 0 ∧
  (mkResults circuit 0 0 0).runtime = 0 ∧
  (mkResults circuit 0 0 0).single_qubit_gates = count_single_qubit_gates circuit ∧
  (mkResults circuit 0 0 0).two_qubit_gates = count_two_qubit_gates circuit ∧
  (mkResults circuit 0 0 0).gates =
    count_single_qubit_gates circuit + count_two_qubit_gates circuit ∧
  (mkResults circuit 0 0 0).circuit = circuit

/-! ### The claims -/

/-- C1: for every simple graph with at least one edge, the mapping returned
by a successful `_synthesis` call (either encoding strategy) assigns every
edge to exactly one layer, no two edges in a common layer share a node, and
the union of the layers is exactly the graph's edge set; consequently the
depth reported by `synthesize` is at least the maximum node degree. -/
theorem claim_C1 {A : List (List Nat)} (hs : IsSimple A) (hedge : HasEdge A) :
    C1Statement A := by
  refine ⟨fun d sb hne => ecSynthesis_partition hs hne,
    fun d sb hne => dsSynthesis_partition hs hne, edgeList_nodup A, ?_, ?_⟩
  · intro elapsed circuit sb lin qc res hname hrun
    obtain ⟨dstar, calls, heq, hfind, _, _⟩ :=
      ec_synthesize_spec hs hedge elapsed circuit sb lin hname
    rw [heq] at hrun
    have hres : res = mkResults (map_mapping_to_qcircuit (ecSynthesis A dstar sb) A)
        dstar elapsed calls := by
      have := Option.some.inj hrun
      exact congrArg Prod.snd this.symm
    have hdep : res.depth = dstar := by rw [hres]; rfl
    rw [hdep]
    have hsat : ecSat A dstar sb := ((ecSynthesis_ne_nil_iff hs).mp hfind).1
    obtain ⟨c, hc⟩ := (ecSat_false_iff_proper hs).mp (ecSat_drop_sb hsat)
    exact proper_maxDegree_le hs hc
  · intro elapsed circuit sb lin qc res hname hrun
    obtain ⟨dstar, calls, heq, hfind, _, _⟩ :=
      ds_synthesize_spec hs hedge elapsed circuit sb lin hname
    rw [heq] at hrun
    have hres : res = mkResults (map_mapping_to_qcircuit (dsSynthesis A dstar sb) A)
        dstar elapsed calls := by
      have := Option.some.inj hrun
      exact congrArg Prod.snd this.symm
    have hdep : res.depth = dstar := by rw [hres]; rfl
    rw [hdep]
    have hsat : dsSat A dstar sb := ((dsSynthesis_ne_nil_iff hs).mp hfind).1
    obtain ⟨c, hc⟩ := (dsSat_iff_proper hs).mp hsat
    exact proper_maxDegree_le hs hc

/-- Witness for C1 at the 2-node graph with one edge. -/
theorem claim_C1_witness : C1Statement [[0, 1], [1, 0]] :=
  claim_C1 (by decide) (by decide)

/-- C2: for every simple graph, either encoding strategy and either
symmetry-breaking setting, satisfiability (a non-empty returned mapping) is
monotone in the depth bound. -/
theorem claim_C2 {A : List (List Nat)} {d1 d2 : Nat} (hs : IsSimple A)
    (h12 : d1 < d2) : C2Statement A d1 d2 := by
  intro sb
  exact ⟨ecSynthesis_mono hs d1 d2 (le_of_lt h12),
    dsSynthesis_mono hs d1 d2 (le_of_lt h12)⟩

/-- Witness for C2 at the 2-node graph, depths 1 < 2. -/
theorem claim_C2_witness : C2Statement [[0, 1], [1, 0]] 1 2 :=
  claim_C2 (by decide) (by decide)

/-- C3: for every simple graph with at least one edge, each encoding strategy
and each symmetry-breaking setting, binary search and linear search return
the same minimal depth. -/
theorem claim_C3 {A : List (List Nat)} (hs : IsSimple A) (hedge : HasEdge A)
    (sb : Bool) : C3Statement A sb := by
  obtain ⟨dE, kE, _, _, _, _, hlinE, hbinE⟩ := ec_search_spec hs hedge sb
  obtain ⟨dD, kD, _, _, _, hlinD, hbinD⟩ := ds_search_spec hs hedge sb
  constructor
  · rw [hlinE, hbinE]
    rfl
  · rw [hlinD, hbinD]
    rfl

/-- Witness for C3 at the 2-node graph with symmetry breaking on. -/
theorem claim_C3_witness : C3Statement [[0, 1], [1, 0]] true :=
  claim_C3 (by decide) (by decide) true

/-- C4: symmetry breaking never changes the set of depths at which either
encoder's instance is satisfiable. -/
theorem claim_C4 {A : List (List Nat)} (hs : IsSimple A) (d : Nat) :
    C4Statement A d := by
  refine ⟨ecSat_sb_iff hs, ?_, ?_, ?_⟩
  · rw [dsSat_iff_proper hs, dsSat_iff_proper hs]
  · rw [ecSynthesis_ne_nil_iff hs, ecSynthesis_ne_nil_iff hs,
      ecSat_sb_iff hs]
  · rw [dsSynthesis_ne_nil_iff hs, dsSynthesis_ne_nil_iff hs,
      dsSat_iff_proper hs, dsSat_iff_proper hs]

/-- Witness for C4 at the 2-node graph at depth 1. -/
theorem claim_C4_witness : C4Statement [[0, 1], [1, 0]] 1 :=
  claim_C4 (by decide) 1

/-- C5: for every simple graph with at least one edge, the instance at depth
= node count is satisfiable for either encoding and either symmetry-breaking
setting, so both search drivers always terminate with a non-empty mapping at
a depth within the bound: the unsatisfiable-at-depth condition never reaches
the caller. -/
theorem claim_C5 {A : List (List Nat)} (hs : IsSimple A) (hedge : HasEdge A)
    (sb : Bool) : C5Statement A sb := by
  obtain ⟨dE, kE, hfindE, _, hubE, _, hlinE, hbinE⟩ := ec_search_spec hs hedge sb
  obtain ⟨dD, kD, hfindD, _, hubD, hlinD, hbinD⟩ := ds_search_spec hs hedge sb
  refine ⟨ecSat_nodeCount hs sb, dsSat_nodeCount hs sb,
    ecSynthesis_nodeCount_ne_nil hs hedge sb,
    dsSynthesis_nodeCount_ne_nil hs hedge sb,
    ⟨_, dE, _, hlinE, hubE, hfindE⟩, ⟨_, dE, kE, hbinE, hubE, hfindE⟩,
    ⟨_, dD, _, hlinD, hubD, hfindD⟩, ⟨_, dD, kD, hbinD, hubD, hfindD⟩⟩

/-- Witness for C5 at the 2-node graph without symmetry breaking. -/
theorem claim_C5_witness : C5Statement [[0, 1], [1, 0]] false :=
  claim_C5 (by decide) (by decide) false

/-- C6 counterexample: on the star `[[0,1,1],[1,0,0],[1,0,0]]` (node 0
joined to nodes 1 and 2) the maximum node degree is 2 but linear search's
lower bound `_max_outgoing_connections` is 1, so the search makes 2 solver
calls where the claim's reading (first probe at the maximum degree, one call
per probe) would force `2 - 2 + 1 = 1`. -/
theorem claim_C6_counterexample :
    maxDegree [[0, 1, 1], [1, 0, 0], [1, 0, 0]] = 2 ∧
    (max_outgoing_connections [[0, 1, 1], [1, 0, 0], [1, 0, 0]]).toNat = 1 ∧
    (EC.linear_search [[0, 1, 1], [1, 0, 0], [1, 0, 0]] false).2 = (2, 2) ∧
    (EC.linear_search [[0, 1, 1], [1, 0, 0], [1, 0, 0]] false).2.2 ≠
      (EC.linear_search [[0, 1, 1], [1, 0, 0], [1, 0, 0]] false).2.1 -
        maxDegree [[0, 1, 1], [1, 0, 0], [1, 0, 0]] + 1 := by
  decide

/-- C6 as amended: linear search's first probed depth equals the code's
`_max_outgoing_connections` lower bound (which can be strictly below the
maximum node degree) for the edge-colouring strategy and zero for the
direct-scheduling strategy, probing successive depths with exactly one
solver call each until the encoder returns a non-empty mapping. -/
theorem claim_C6 {A : List (List Nat)} (hs : IsSimple A) (hedge : HasEdge A)
    (sb : Bool) : C6Statement A sb := by
  obtain ⟨dE, kE, hfindE, hleastE, _, hlbE, hlinE, _⟩ := ec_search_spec hs hedge sb
  obtain ⟨dD, kD, hfindD, hleastD, _, hlinD, _⟩ := ds_search_spec hs hedge sb
  exact ⟨⟨dE, hfindE, hleastE, hlbE, hlinE⟩, ⟨dD, hfindD, hleastD, hlinD⟩⟩

/-- Witness for C6 (amended) at the star graph from the counterexample. -/
theorem claim_C6_witness : C6Statement [[0, 1, 1], [1, 0, 0], [1, 0, 0]] false :=
  claim_C6 (by decide) (by decide) false

/-- C7 counterexample: on a mapping whose stored keys are not in increasing
order (layer 1 inserted before layer 0), the materializer emits layer 1's CZ
first, not layer 0's, so its output differs from the spec's
increasing-layer-order rendering. -/
theorem claim_C7_counterexample :
    map_mapping_to_qcircuit [(1, [(1, 0)]), (0, [(3, 2)])]
        [[0, 0, 0, 0], [0, 0, 0, 0], [0, 0, 0, 0], [0, 0, 0, 0]] ≠
      materializeSorted [(1, [(1, 0)]), (0, [(3, 2)])]
        [[0, 0, 0, 0], [0, 0, 0, 0], [0, 0, 0, 0], [0, 0, 0, 0]] := by
  decide

/-- C7 as amended: the materializer applies a Hadamard to each of the `n`
nodes first and then emits the pairwise CZ operations grouped by layer in
the mapping's own stored (insertion) order — which equals increasing
layer-index order exactly when the stored keys are sorted; an empty mapping
produces only the Hadamard layer. -/
theorem claim_C7 (mapping : List (Nat × List (Nat × Nat)))
    (A : List (List Nat)) : C7Statement mapping A := by
  refine ⟨rfl, ?_, ?_⟩
  · rintro rfl
    simp [map_mapping_to_qcircuit]
  · intro hsorted
    unfold materializeSorted
    rw [List.Sorted.insertionSort_eq hsorted]

/-- Witness for C7 (amended) at a two-layer mapping with sorted keys. -/
theorem claim_C7_witness :
    C7Statement [(0, [(1, 0)]), (1, [(3, 2)])]
      [[0, 0, 0, 0], [0, 0, 0, 0], [0, 0, 0, 0], [0, 0, 0, 0]] :=
  claim_C7 [(0, [(1, 0)]), (1, [(3, 2)])]
    [[0, 0, 0, 0], [0, 0, 0, 0], [0, 0, 0, 0], [0, 0, 0, 0]]

/-- C8: an input whose extracted adjacency matrix is all zeros
short-circuits both synthesize entry points before any solver call: the
input circuit is returned unchanged, with depth 0, solver calls 0, runtime
0, and the operation counts taken from the input circuit. -/
theorem claim_C8 (elapsed : Nat) (circuit : QCircuit) (sb lin : Bool)
    (hzero : ∀ row ∈ extract_adjacency_matrix (QCircuit.name circuit),
      ∀ cell ∈ row, cell = 0) :
    C8Statement elapsed circuit sb lin := by
  have hcond : ((extract_adjacency_matrix (QCircuit.name circuit)).all
      fun row => row.all fun cell => cell == 0) = true := by
    rw [List.all_eq_true]
    intro row hrow
    rw [List.all_eq_true]
    intro cell hcell
    have := hzero row hrow cell hcell
    simp [this]
  refine ⟨?_, ?_, rfl, rfl, rfl, rfl, rfl, rfl, rfl⟩
  · unfold EC.synthesize
    dsimp only
    rw [hcond]
    rfl
  · unfold DS.synthesize
    dsimp only
    rw [hcond]
    rfl

/-- Witness for C8 at a 1-node zero matrix with one single-qubit
instruction in the input circuit. -/
theorem claim_C8_witness :
    C8Statement 7 ⟨"Graphstate g: [[0]]", [Gate.other [0]]⟩ true false :=
  claim_C8 7 ⟨"Graphstate g: [[0]]", [Gate.other [0]]⟩ true false (by decide)

/-- C9 counterexample: on the 2-node graph the direct-scheduling strategy
(`sat_solvers_synthesis.py`) makes 2 solver calls — linear search probes the
unsatisfiable depth 0 first — not 1 as the claim states for either strategy
(matching the repository's own test expectations). -/
theorem claim_C9_counterexample :
    (DS.synthesize 0
        ⟨"Depth optimal circuit of Graphstate g: [[0, 1], [1, 0]]", []⟩
        false true).map (fun r => r.2.solver_calls) = some 2 ∧ (2 : Nat) ≠ 1 := by
  constructor
  · decide
  · decide

/-- C9 as amended: on the 2-node graph `[[0,1],[1,0]]` without symmetry
breaking, both search strategies return depth 1, pairwise-operation count 1
and total operation count 3; the solver-call count is 1 for the
edge-colouring strategy but 2 for the direct-scheduling strategy. -/
theorem claim_C9 :
    ((EC.synthesize 0
        ⟨"Depth optimal circuit of Graphstate g: [[0, 1], [1, 0]]", []⟩
        false true).map
      (fun r => (r.2.depth, r.2.two_qubit_gates, r.2.gates, r.2.solver_calls)) =
        some (1, 1, 3, 1)) ∧
    ((EC.synthesize 0
        ⟨"Depth optimal circuit of Graphstate g: [[0, 1], [1, 0]]", []⟩
        false false).map
      (fun r => (r.2.depth, r.2.two_qubit_gates, r.2.gates, r.2.solver_calls)) =
        some (1, 1, 3, 1)) ∧
    ((DS.synthesize 0
        ⟨"Depth optimal circuit of Graphstate g: [[0, 1], [1, 0]]", []⟩
        false true).map
      (fun r => (r.2.depth, r.2.two_qubit_gates, r.2.gates, r.2.solver_calls)) =
        some (1, 1, 3, 2)) ∧
    ((DS.synthesize 0
        ⟨"Depth optimal circuit of Graphstate g: [[0, 1], [1, 0]]", []⟩
        false false).map
      (fun r => (r.2.depth, r.2.two_qubit_gates, r.2.gates, r.2.solver_calls)) =
        some (1, 1, 3, 2)) := by
  refine ⟨?_, ?_, ?_, ?_⟩ <;> decide

/-- C10: for every square 0/1 adjacency matrix, re-extracting the adjacency
matrix from the name the materializer gives its output circuit returns the
matrix exactly: the synthesizer's name-based graph encoding round-trips, so
an output circuit can be fed back in as input. -/
theorem claim_C10 {A : List (List Nat)}
    (mapping : List (Nat × List (Nat × Nat)))
    (hsq : ∀ r ∈ A, r.length = A.length)
    (h01 : ∀ r ∈ A, ∀ x ∈ r, x ≤ 1) :
    extract_adjacency_matrix
      (QCircuit.name (map_mapping_to_qcircuit mapping A)) = A := by
  have hname : QCircuit.name (map_mapping_to_qcircuit mapping A) =
      "Depth optimal circuit of Graphstate g: " ++ pyRenderMatrix A := rfl
  rw [hname]
  exact extract_roundtrip hsq h01

/-- Witness for C10 at the 2-node graph with the one-layer mapping. -/
theorem claim_C10_witness :
    extract_adjacency_matrix
      (QCircuit.name (map_mapping_to_qcircuit [(0, [(1, 0)])] [[0, 1], [1, 0]])) =
      [[0, 1], [1, 0]] :=
  claim_C10 [(0, [(1, 0)])] (by decide) (by decide)

end GraphStateSynthesis
